import Mathlib

/-!
Shallow embedding of the document indexing and retrieval core of the
SpartansSupportTelegramBot repository, together with proofs of the
specification claims about it.

The embedded code comes from:
- `src/config/settings.py` (configuration constants),
- `src/embeddings/line_chunker.py` (`LineChunker`),
- `src/embeddings/embedder.py` (`Embedder`),
- `src/embeddings/vector_store.py` (`VectorStore`),
- `src/embeddings/search.py` (`DocumentSearch`).

External collaborators (the tiktoken tokenizer, the OpenAI embedding
backend, the ChromaDB nearest-neighbour engine and the filesystem) are
modelled as explicit parameters; all repository-side logic is translated
statement by statement from the Python source.
-/

namespace Spartans

/-- Configuration from `src/config/settings.py`, `CHUNK_SETTINGS['chunk_size']`. -/
def chunkSizeSetting : Nat := 300

/-- Configuration from `src/config/settings.py`, `CHUNK_SETTINGS['overlap']`. -/
def overlapSetting : Nat := 50

/-- Configuration from `src/config/settings.py`, `SEARCH_SETTINGS['default_top_k']`. -/
def defaultTopKSetting : Nat := 15

/-- Configuration from `src/config/settings.py`, `SEARCH_SETTINGS['similarity_threshold']` (0.3). -/
def similarityThreshold : ℚ := 3 / 10

/-- Configuration from `src/config/settings.py`, `EMBEDDING_SETTINGS['dimensions']`. -/
def embeddingDimensions : Nat := 1536

/-- Configuration from `src/config/settings.py`, `SUPPORTED_LANGUAGES`. -/
def supportedLanguages : List String := ["en", "ru"]

/-! ### String helpers

Executable helpers modelling the Python string operations used by the
source (`in` substring test, `str.lower`, `str.endswith`, `os.path.join`). -/

/-- Boolean test that the first list is an initial segment of the second. -/
def listIsPre : List Char → List Char → Bool
  | [], _ => true
  | _ :: _, [] => false
  | a :: as, b :: bs => a == b && listIsPre as bs

/-- Boolean substring test on character lists (Python `pat in s`). -/
def listHasSub (p : List Char) : List Char → Bool
  | [] => listIsPre p []
  | b :: bs => listIsPre p (b :: bs) || listHasSub p bs

/-- Python `pat in s` on strings. -/
def strContains (s pat : String) : Bool := listHasSub pat.data s.data

/-- Python `s.lower()` (character-wise lowering). -/
def lowerStr (s : String) : String := String.mk (s.data.map Char.toLower)

/-- Python `s.endswith(p)`. -/
def strEndsWith (s p : String) : Bool := listIsPre p.data.reverse s.data.reverse

/-- Python `os.path.join a b` on POSIX paths. -/
def pathJoin (a b : String) : String := a ++ "/" ++ b

/-- Python `s.strip()` on a character list: leading and trailing
whitespace removed. -/
def stripChars (l : List Char) : List Char :=
  ((l.dropWhile Char.isWhitespace).reverse.dropWhile Char.isWhitespace).reverse

/-- Python `s.strip()`. -/
def stripStr (s : String) : String := String.mk (stripChars s.data)

/-- Splitting a character list at a separator character (Python
`s.split(sep)` shape: n separators give n+1 parts). -/
def splitCharList (sep : Char) : List Char → List (List Char)
  | [] => [[]]
  | c :: rest =>
    let r := splitCharList sep rest
    if c == sep then [] :: r
    else (c :: r.headD []) :: r.tail

/-- Joining character lists with a separator character. -/
def joinCharLists (sep : Char) : List (List Char) → List Char
  | [] => []
  | [l] => l
  | l :: rest => l ++ sep :: joinCharLists sep rest

namespace LineChunker

/-- `LineChunker._detect_document_type` from `src/embeddings/line_chunker.py`
lines 115-130: case-insensitive keyword matching over the given text,
first match in a fixed priority order wins. -/
def detectDocumentType (text : String) : String :=
  let t := lowerStr text
  if strContains t ("sportsbook") || strContains t ("betting") then "sportsbook_rules"
  else if strContains t ("bonus") || strContains t ("promotion") then "bonus_rules"
  else if strContains t ("privacy") || strContains t ("data") then "privacy_policy"
  else if strContains t ("aml") || strContains t ("money laundering") then "aml_policy"
  else if strContains t ("terms") || strContains t ("conditions") then "terms"
  else if strContains t ("promotion") then "promotions"
  else "general"

/-- The `while` loop of `LineChunker._split_tokens` (`src/embeddings/line_chunker.py`
lines 104-113), entered with cursor `start`.  Each iteration slices
`tokens[start : min (start+cs) len]` and advances the cursor to
`end - ov`; the Python slice equals `(tokens.drop start).take cs` in both
exit cases.  Termination relies on `ov < cs`, exactly as in the source. -/
def splitSeg (cs ov : Nat) (hov : ov < cs) (tokens : List α) (start : Nat) :
    List (List α) :=
  if hlt : start < tokens.length then
    if he : min (start + cs) tokens.length = tokens.length then
      [(tokens.drop start).take cs]
    else
      ((tokens.drop start).take cs) ::
        splitSeg cs ov hov tokens (min (start + cs) tokens.length - ov)
  else []
termination_by tokens.length - start
decreasing_by omega

/-- `LineChunker._split_tokens` (`src/embeddings/line_chunker.py` lines 99-113):
a token list that fits in `cs` is returned whole; otherwise the windowing
loop runs from cursor 0. -/
def splitTokens (cs ov : Nat) (hov : ov < cs) (tokens : List α) : List (List α) :=
  if tokens.length ≤ cs then [tokens] else splitSeg cs ov hov tokens 0

/-- Reassembly of the windows: keep the first window whole and strip the
first `ov` tokens from every later window, then concatenate ("the
concatenation of the windows minus overlaps"). -/
def joinSegs (ov : Nat) : List (List α) → List α
  | [] => []
  | s :: rest => s ++ (rest.map (fun t => t.drop ov)).flatten

/-- Python slice endpoint resolution for `l[a:b]` (clamping, negative
indices counted from the end). -/
def pyIdx (len : Nat) (i : Int) : Nat :=
  if i < 0 then ((len : Int) + i).toNat else min i.toNat len

/-- Python slice `l[a:b]`. -/
def pySlice (l : List α) (a b : Int) : List α :=
  (l.take (pyIdx l.length b)).drop (pyIdx l.length a)

/-- Fuel-indexed model of the raw `while` loop of `_split_tokens`
(`src/embeddings/line_chunker.py` lines 104-113), with the cursor kept as a
Python integer, since `start = end - self.overlap` can go negative when
`overlap > chunk_size`.  Returns `none` when the loop does not finish
within `fuel` iterations. -/
def splitLoopFuel (cs ov : Nat) (tokens : List α) : Int → Nat → Option (List (List α))
  | _, 0 => none
  | start, fuel+1 =>
    if start < (tokens.length : Int) then
      if min (start + cs) (tokens.length : Int) = (tokens.length : Int) then
        some [pySlice tokens start (min (start + cs) (tokens.length : Int))]
      else
        match splitLoopFuel cs ov tokens (min (start + cs) (tokens.length : Int) - ov) fuel with
        | none => none
        | some rest => some (pySlice tokens start (min (start + cs) (tokens.length : Int)) :: rest)
    else some []

/-- Fuel-indexed model of the whole `_split_tokens`. -/
def splitTokensFuel (cs ov : Nat) (tokens : List α) (fuel : Nat) : Option (List (List α)) :=
  if tokens.length ≤ cs then some [tokens] else splitLoopFuel cs ov tokens 0 fuel

end LineChunker

/-! ### Data model: chunks, embedding records, stored entries -/

/-- Metadata dict attached to a chunk by `LineChunker.process_document`
(`chunk_meta`, `src/embeddings/line_chunker.py` lines 59-65); the `mtime`
key is absent (`none`) until `VectorStore.load_documents` stamps it
(`src/embeddings/vector_store.py` line 74). -/
structure ChunkMeta where
  line_number : Nat
  segment_index : Nat
  total_segments_in_line : Nat
  doc_id : String
  path : String
  mtime : Option Nat
deriving DecidableEq

/-- The `Chunk` dataclass from `src/embeddings/chunker.py` lines 8-16.
The `section` field is called `sect` here because `section` is a Lean
keyword. -/
structure Chunk where
  content : String
  metadata : ChunkMeta
  chunk_id : String
  language : String
  document_type : String
  sect : String
deriving DecidableEq

/-- The metadata of a stored entry: the chunk metadata enriched by
`Embedder.embed_chunks` (`src/embeddings/embedder.py` line 52) with
`language` and `document_type`.  `sect` models the optional `section` key
(never present for `LineChunker` chunks, hence `none` in this pipeline). -/
structure EntryMeta where
  line_number : Nat
  segment_index : Nat
  total_segments_in_line : Nat
  doc_id : String
  path : String
  mtime : Option Nat
  language : String
  document_type : String
  sect : Option String
deriving DecidableEq

/-- A persisted Vector Store entry: `{id, vector, content, metadata}`. -/
structure Entry where
  id : String
  embedding : List ℚ
  metadata : EntryMeta
  content : String
deriving DecidableEq

/-- ChromaDB `collection.get(where := path)`: the stored entries whose
metadata path equals `p`, in storage order. -/
def entriesWithPath (st : List Entry) (p : String) : List Entry :=
  st.filter (fun e => e.metadata.path == p)

/-- ChromaDB `collection.delete(ids := ids)`. -/
def deleteIds (st : List Entry) (ids : List String) : List Entry :=
  st.filter (fun e => !(ids.contains e.id))

/-- ChromaDB upsert of a single record: replace the entry with the same id
in place, or append. -/
def upsertOne (st : List Entry) (e : Entry) : List Entry :=
  if st.any (fun x => x.id == e.id) then
    st.map (fun x => if x.id == e.id then e else x)
  else st ++ [e]

/-- `VectorStore.add_embeddings` (`src/embeddings/vector_store.py` lines
22-28): batch upsert keyed by chunk id. -/
def upsertAll (st : List Entry) (es : List Entry) : List Entry := es.foldl upsertOne st

/-! ### Segmenter (`src/embeddings/line_chunker.py`) -/

namespace LineChunker

/-- Chunks generated for one non-blank (already stripped) line by the
inner loop of `LineChunker.process_document` (lines 51-75); `enc` and
`dec` are the external tiktoken encoder and decoder. -/
def lineChunks {τ : Type} (enc : String → List τ) (dec : List τ → String)
    (cs ov : Nat) (hov : ov < cs) (docId filePath language : String)
    (lineNumber : Nat) (line : String) : List Chunk :=
  let segs := splitTokens cs ov hov (enc line)
  (segs.enum).map (fun p =>
    ⟨dec p.2,
     ⟨lineNumber, p.1, segs.length, docId, filePath, none⟩,
     docId ++ "_L" ++ toString lineNumber ++ "_S" ++ toString p.1,
     language,
     detectDocumentType (dec p.2),
     "Line " ++ toString lineNumber⟩)

/-- The loop of `LineChunker.process_document` over the 1-based enumerated
raw lines (lines 45-75): lines are stripped, blank lines are skipped. -/
def processLines {τ : Type} (enc : String → List τ) (dec : List τ → String)
    (cs ov : Nat) (hov : ov < cs) (docId filePath language : String) :
    Nat → List String → List Chunk
  | _, [] => []
  | ln, raw :: rest =>
    (if stripStr raw = "" then []
     else lineChunks enc dec cs ov hov docId filePath language ln (stripStr raw)) ++
    processLines enc dec cs ov hov docId filePath language (ln + 1) rest

/-- `LineChunker.process_document` (lines 36-77) applied to the raw lines
of the file (the filesystem read is the collaborator giving `rawLines`). -/
def processDocument {τ : Type} (enc : String → List τ) (dec : List τ → String)
    (cs ov : Nat) (hov : ov < cs) (rawLines : List String)
    (docId filePath language : String) : List Chunk :=
  processLines enc dec cs ov hov docId filePath language 1 rawLines

end LineChunker

/-- `os.path.basename` on POSIX paths: the part after the last slash. -/
def baseName (s : String) : String :=
  String.mk ((splitCharList '/' s.data).getLastD s.data)

/-- The stem of `os.path.splitext`: the name up to the last dot (the whole
name when there is no dot). -/
def stemOf (s : String) : String :=
  let parts := splitCharList '.' s.data
  if parts.length ≤ 1 then s else String.mk (joinCharLists '.' (parts.dropLast))

/-- The `doc_id` of `process_document` (lines 41-42):
`os.path.splitext(os.path.basename(file_path))[0]`. -/
def docIdOf (filePath : String) : String := stemOf (baseName filePath)

/-- The `LineChunker` instance as passed to `load_documents`
(`src/bot/main.py` lines 34-47): `process_document` reading the file
through the filesystem collaborator `readFile` (path to raw lines). -/
def lineChunkerFn {τ : Type} (enc : String → List τ) (dec : List τ → String)
    (cs ov : Nat) (hov : ov < cs) (readFile : String → List String) :
    String → String → Except Unit (List Chunk) :=
  fun filePath language =>
    Except.ok (LineChunker.processDocument enc dec cs ov hov (readFile filePath)
      (docIdOf filePath) filePath language)

/-! ### Embedding provider (`src/embeddings/embedder.py`) -/

/-- Failures of the external embedding backend: the configured model may
be rejected (`openai.NotFoundError`) or the call may fail otherwise. -/
inductive BackendErr where
  | notFound
  | other
deriving DecidableEq

/-- The hard-coded fallback model of `_create_embeddings` (line 28). -/
def fallbackModelName : String := "text-embedding-ada-002"

/-- `Embedder._create_embeddings` (lines 18-30).  `key` is
`OPENAI_API_KEY` (`none` when unset; Python `not key` is also true for an
empty string, hence the `getD` test).  `backend` is the external
`client.embeddings.create` call, taking the model name and the inputs. -/
def createEmbeddings (key : Option String) (dim : Nat) (modelName : String)
    (backend : String → List String → Except BackendErr (List (List ℚ)))
    (inputs : List String) : Except BackendErr (List (List ℚ)) :=
  if key.getD "" = "" then
    Except.ok (inputs.map (fun _ => List.replicate dim (0 : ℚ)))
  else
    match backend modelName inputs with
    | Except.ok vs => Except.ok vs
    | Except.error BackendErr.notFound => backend fallbackModelName inputs
    | Except.error _ => Except.error BackendErr.other

/-- One output record of `Embedder.embed_chunks` (lines 50-63): the
chunk's metadata enriched with `language` and `document_type`. -/
def entryOfChunk (c : Chunk) (v : List ℚ) : Entry :=
  ⟨c.chunk_id, v,
   ⟨c.metadata.line_number, c.metadata.segment_index,
    c.metadata.total_segments_in_line, c.metadata.doc_id, c.metadata.path,
    c.metadata.mtime, c.language, c.document_type, none⟩,
   c.content⟩

/-- `Embedder.embed_chunks` (lines 40-65) over an abstract `embed_texts`
backend result: embeds the chunk contents and pairs each chunk with its
vector (`embeddings[i]` raises `IndexError`, i.e. fails, if the backend
returned fewer vectors than chunks). -/
def embedChunks (embedTexts : List String → Except Unit (List (List ℚ)))
    (chunks : List Chunk) : Except Unit (List Entry) :=
  match embedTexts (chunks.map (fun c => c.content)) with
  | Except.error e => Except.error e
  | Except.ok vs =>
    if chunks.length ≤ vs.length then
      Except.ok (List.zipWith entryOfChunk chunks vs)
    else Except.error ()

/-! ### Vector store reindexing (`src/embeddings/vector_store.py` lines 30-90) -/

/-- One directory listing entry: a file name and its current `os.path.getmtime`. -/
structure FileEntry where
  name : String
  mtime : Nat
deriving DecidableEq

/-- Per-file outcome counted by `load_documents`. -/
inductive FileStatus where
  | added
  | updated
  | skipped
deriving DecidableEq

/-- The status string recorded in `files_info`. -/
def statusStr : FileStatus → String
  | FileStatus.added => "added"
  | FileStatus.updated => "updated"
  | FileStatus.skipped => "skipped"

/-- One `files_info` record (`{'path', 'status', 'chunks'}`). -/
structure FileInfo where
  path : String
  status : String
  chunks : Nat
deriving DecidableEq

/-- The statistics dict returned by `load_documents` (lines 84-90). -/
structure ReindexStats where
  added : Nat
  updated : Nat
  skipped : Nat
  chunks_added : Nat
  files : List FileInfo
deriving DecidableEq

/-- Counter and `files_info` bookkeeping of one successfully processed
file. -/
def bumpStats (s : ReindexStats) (p : String) (fs : FileStatus) (n : Nat) : ReindexStats :=
  ⟨s.added + (match fs with | FileStatus.added => 1 | _ => 0),
   s.updated + (match fs with | FileStatus.updated => 1 | _ => 0),
   s.skipped + (match fs with | FileStatus.skipped => 1 | _ => 0),
   s.chunks_added + n,
   s.files ++ [⟨p, statusStr fs, n⟩]⟩

/-- `c.metadata['mtime'] = mtime` (line 74). -/
def stampMtime (m : Nat) (c : Chunk) : Chunk :=
  ⟨c.content,
   ⟨c.metadata.line_number, c.metadata.segment_index,
    c.metadata.total_segments_in_line, c.metadata.doc_id, c.metadata.path, some m⟩,
   c.chunk_id, c.language, c.document_type, c.sect⟩

/-- The `added`/`updated` tail of the per-file loop body (lines 71-82):
chunk the file, stamp each chunk's metadata with the file's mtime, embed,
upsert.  An exception from the chunker or the embedder propagates,
leaving the store as mutated so far. -/
def indexFile (chunkFn : String → String → Except Unit (List Chunk))
    (embedTexts : List String → Except Unit (List (List ℚ)))
    (filePath lang : String) (mtime : Nat) (status : FileStatus)
    (st : List Entry) : Except Unit (FileStatus × Nat) × List Entry :=
  match chunkFn filePath lang with
  | Except.error e => (Except.error e, st)
  | Except.ok chunks =>
    match embedChunks embedTexts (chunks.map (stampMtime mtime)) with
    | Except.error e => (Except.error e, st)
    | Except.ok records => (Except.ok (status, chunks.length), upsertAll st records)

/-- The body of the per-file loop of `load_documents` (lines 39-82) for
one eligible (`.txt`) file: the promotions check (lines 43-46), the
staleness check against the first stored entry's recorded mtime (lines
50-62), deletion of stale entries (line 64), then chunk/embed/upsert. -/
def stepFile (chunkFn : String → String → Except Unit (List Chunk))
    (embedTexts : List String → Except Unit (List (List ℚ)))
    (dataDir lang : String) (f : FileEntry) (st : List Entry) :
    Except Unit (FileStatus × Nat) × List Entry :=
  if strContains (lowerStr f.name) "promotions" then
    (Except.ok (FileStatus.skipped, 0), st)
  else if (entriesWithPath st (pathJoin (pathJoin dataDir lang) f.name)).isEmpty then
    indexFile chunkFn embedTexts (pathJoin (pathJoin dataDir lang) f.name) lang
      f.mtime FileStatus.added st
  else if ((entriesWithPath st (pathJoin (pathJoin dataDir lang) f.name)).head?.bind
      (fun e => e.metadata.mtime)) == some f.mtime then
    (Except.ok (FileStatus.skipped, 0), st)
  else
    indexFile chunkFn embedTexts (pathJoin (pathJoin dataDir lang) f.name) lang
      f.mtime FileStatus.updated
      (deleteIds st ((entriesWithPath st (pathJoin (pathJoin dataDir lang) f.name)).map
        (fun e => e.id)))

/-- The file loop of `load_documents`, folding `stepFile` over the
eligible files; an exception aborts the walk with the store as mutated so
far (the local counters of the Python function are lost with it). -/
def runFiles (chunkFn : String → String → Except Unit (List Chunk))
    (embedTexts : List String → Except Unit (List (List ℚ)))
    (dataDir : String) :
    List (String × FileEntry) → List Entry → ReindexStats →
      Except Unit ReindexStats × List Entry
  | [], st, acc => (Except.ok acc, st)
  | (lang, f) :: rest, st, acc =>
    match stepFile chunkFn embedTexts dataDir lang f st with
    | (Except.error e, st') => (Except.error e, st')
    | (Except.ok (fs, n), st') =>
      runFiles chunkFn embedTexts dataDir rest st'
        (bumpStats acc (pathJoin (pathJoin dataDir lang) f.name) fs n)

/-- The eligible files of the two-level directory layout (lines 35-41):
for each language in the fixed order `['en', 'ru']`, the listing of
`dataDir/lang` (skipped entirely when not a directory) filtered to `.txt`
names (a non-`.txt` file is passed over without being counted). -/
def eligFiles (fsys : String → Option (List FileEntry)) (dataDir : String) :
    List (String × FileEntry) :=
  (["en", "ru"] : List String).flatMap (fun lang =>
    match fsys (pathJoin dataDir lang) with
    | none => []
    | some es =>
      (es.filter (fun f => strEndsWith f.name ".txt")).map (fun f => (lang, f)))

/-- `VectorStore.load_documents` (lines 30-90, the spec's `reindexTree`):
walks the tree and returns the statistics dict, threading the persistent
collection state. -/
def loadDocuments (chunkFn : String → String → Except Unit (List Chunk))
    (embedTexts : List String → Except Unit (List (List ℚ)))
    (fsys : String → Option (List FileEntry)) (dataDir : String)
    (st : List Entry) : Except Unit ReindexStats × List Entry :=
  runFiles chunkFn embedTexts dataDir (eligFiles fsys dataDir) st ⟨0, 0, 0, 0, []⟩

/-! ### Vector store search (`src/embeddings/vector_store.py` lines 109-136) -/

/-- The reply of the external ChromaDB `collection.query` call: parallel
lists of documents (possibly `None`), metadata dicts (possibly `None`)
and cosine distances, at most `n_results` long. -/
structure QueryRes where
  documents : List (Option String)
  metadatas : List (Option EntryMeta)
  distances : List ℚ
deriving DecidableEq

/-- One result dict of `VectorStore.search` (line 132). -/
structure SearchHit where
  content : String
  metadata : Option EntryMeta
  similarity : ℚ
deriving DecidableEq

/-- One iteration of the post-processing loop of `VectorStore.search`
(lines 128-133): skip a `None` document, compute `similarity = 1 -
distance`, skip a result below `similarity_threshold`. -/
def hitOf (t : Option String × Option EntryMeta × ℚ) : Option SearchHit :=
  match t.1 with
  | none => none
  | some d =>
    if 1 - t.2.2 < similarityThreshold then none
    else some ⟨d, t.2.1, 1 - t.2.2⟩

/-- The post-processing of `VectorStore.search` (lines 122-136) over the
raw query reply. -/
def vsSearch (res : QueryRes) : List SearchHit :=
  (res.documents.zip (res.metadatas.zip res.distances)).filterMap hitOf

/-! ### Search facade (`src/embeddings/search.py`) -/

/-- The "no relevant information" sentinel of `get_context_for_llm`
(line 118). -/
def sentinelNoInfo : String := "Не найдено релевантной информации в документах."

/-- Python `enumerate(xs, i)`. -/
def enumFrom : Nat → List β → List (Nat × β)
  | _, [] => []
  | i, x :: xs => (i, x) :: enumFrom (i + 1) xs

/-- Python `sep.join(parts)`. -/
def joinWith (sep : String) : List String → String
  | [] => ""
  | [s] => s
  | s :: rest => s ++ sep ++ joinWith sep rest

/-- The section shown for one result (line 122):
`result.get('metadata', {}).get('section') or result.get('section', '-')`;
the result dicts built by `VectorStore.search` have no top-level
`section` key, so the fallback is always `"-"`. -/
def hitSection (r : SearchHit) : String :=
  match r.metadata with
  | none => "-"
  | some m =>
    match m.sect with
    | none => "-"
    | some s => if s = "" then "-" else s

/-- One `context_parts` element (line 124). -/
def formatHit (i : Nat) (r : SearchHit) : String :=
  "Источник " ++ toString i ++ " (раздел: " ++ hitSection r ++ "):\n" ++ r.content ++ "\n"

/-- `DocumentSearch.get_context_for_llm` (lines 101-126) over the abstract
search outcome `searchFn` (query, language, top_k): the sentinel for an
empty result list, the numbered source blocks joined by newlines
otherwise. -/
def contextForLLM (searchFn : String → String → Nat → List SearchHit)
    (query language : String) (topK : Nat) : String :=
  let results := searchFn query language topK
  if results.isEmpty then sentinelNoInfo
  else joinWith "\n" ((enumFrom 1 results).map (fun p => formatHit p.1 p.2))

/-- `DocumentSearch.get_multilingual_context` (lines 128-151): the
contexts for `'en'` then `'ru'`, each kept exactly when it differs from
the sentinel. -/
def multilingualContext (searchFn : String → String → Nat → List SearchHit)
    (query : String) (topK : Nat) : List (String × String) :=
  let enC := contextForLLM searchFn query "en" topK
  let ruC := contextForLLM searchFn query "ru" topK
  (if enC ≠ sentinelNoInfo then [("en", enC)] else []) ++
    (if ruC ≠ sentinelNoInfo then [("ru", ruC)] else [])

/-! ### Concrete collaborators used by witnesses and counterexamples -/

/-- A concrete invertible tokenizer (one token per character), standing in
for the external tiktoken encoder on explicit inputs. -/
def charEnc (s : String) : List Char := s.data

/-- The matching decoder. -/
def charDec (l : List Char) : String := String.mk l

/-- A concrete embedding backend result: one 1-dimensional zero vector
per input (the shape of the degraded offline mode). -/
def zeroEmbed (ts : List String) : Except Unit (List (List ℚ)) :=
  Except.ok (ts.map (fun _ => [(0 : ℚ)]))

/-- The statistics of a reindexing run, with the zero record for a run
that raised. -/
def statsOf (r : Except Unit ReindexStats × List Entry) : ReindexStats :=
  (r.1).toOption.getD ⟨0, 0, 0, 0, []⟩

/-- A two-file English tree whose first file cannot be segmented
(e.g. an unreadable file): directory listing of `data/en`. -/
def fsTwoFiles : String → Option (List FileEntry) :=
  fun p => if p = "data/en" then some [⟨"a.txt", 1⟩, ⟨"b.txt", 2⟩] else none

/-- A chunker that raises on `data/en/a.txt` and chunks any other path
into one chunk. -/
def chunkFailOnA : String → String → Except Unit (List Chunk) :=
  fun p lang =>
    if p = "data/en/a.txt" then Except.error ()
    else Except.ok [⟨"x", ⟨1, 0, 1, docIdOf p, p, none⟩, docIdOf p ++ "_L1_S0",
      lang, "general", "Line 1"⟩]

/-- A tree with the same stem `rules.txt` in both language directories
(mtimes 1 and 2). -/
def fsSameStem : String → Option (List FileEntry) :=
  fun p =>
    if p = "data/en" then some [⟨"rules.txt", 1⟩]
    else if p = "data/ru" then some [⟨"rules.txt", 2⟩]
    else none

/-- The file contents behind `fsSameStem`: every file is the single line
`x`. -/
def readSameStem : String → List String := fun _ => ["x"]

/-- A chunker (path, language) seen as the infallible collaborator built
from a total chunk function, as the in-process `LineChunker` is. -/
def okChunkFn (C : String → String → List Chunk) :
    String → String → Except Unit (List Chunk) :=
  fun p lang => Except.ok (C p lang)

/-- An embedding call that always answers, built from a total vector
function. -/
def okEmbed (E : List String → List (List ℚ)) :
    List String → Except Unit (List (List ℚ)) :=
  fun ts => Except.ok (E ts)

/-- The path of one walked (language, file) pair. -/
def pairPath (dataDir : String) (q : String × FileEntry) : String :=
  pathJoin (pathJoin dataDir q.1) q.2.name

/-- The entries that indexing the file `q` inserts: its chunks, stamped
with the file's mtime, paired with their embedding vectors. -/
def chunkRecs (C : String → String → List Chunk) (E : List String → List (List ℚ))
    (dataDir : String) (q : String × FileEntry) : List Entry :=
  List.zipWith entryOfChunk ((C (pairPath dataDir q) q.1).map (stampMtime q.2.mtime))
    (E (((C (pairPath dataDir q) q.1).map (stampMtime q.2.mtime)).map
      (fun c => c.content)))

/-- The walked files that are actually indexed (promotions files are
not). -/
def nonPromoFiles (l : List (String × FileEntry)) : List (String × FileEntry) :=
  l.filter (fun q => !(strContains (lowerStr q.2.name) "promotions"))

/-- A two-language tree with distinct stems: `data/en/rules.txt` and
`data/ru/faq.txt`. -/
def fsDistinctStems : String → Option (List FileEntry) :=
  fun p =>
    if p = "data/en" then some [⟨"rules.txt", 1⟩]
    else if p = "data/ru" then some [⟨"faq.txt", 2⟩]
    else none

/-- A one-chunk-per-file total chunker whose chunk ids follow the
`LineChunker` scheme (document stem, line, segment). -/
def constChunk (p lang : String) : List Chunk :=
  [⟨"x", ⟨1, 0, 1, docIdOf p, p, none⟩, docIdOf p ++ "_L1_S0", lang, "general",
    "Line 1"⟩]

/-- A total embedding function: one 1-dimensional zero vector per text. -/
def oneVec (ts : List String) : List (List ℚ) := ts.map (fun _ => [(0 : ℚ)])

namespace LineChunker

/-! ### Unfolding lemmas for the windowing loop -/

lemma splitSeg_nil {cs ov : Nat} {hov : ov < cs} {tokens : List α} {start : Nat}
    (h : tokens.length ≤ start) : splitSeg cs ov hov tokens start = [] := by
  unfold splitSeg
  rw [dif_neg (by omega)]

lemma splitSeg_last {cs ov : Nat} {hov : ov < cs} {tokens : List α} {start : Nat}
    (hlt : start < tokens.length) (hle : tokens.length ≤ start + cs) :
    splitSeg cs ov hov tokens start = [(tokens.drop start).take cs] := by
  unfold splitSeg
  rw [dif_pos hlt, dif_pos (by omega)]

lemma splitSeg_cons {cs ov : Nat} {hov : ov < cs} {tokens : List α} {start : Nat}
    (hlt : start + cs < tokens.length) :
    splitSeg cs ov hov tokens start
      = ((tokens.drop start).take cs) :: splitSeg cs ov hov tokens (start + cs - ov) := by
  have h1 : start < tokens.length := by omega
  have h2 : min (start + cs) tokens.length - ov = start + cs - ov := by omega
  conv_lhs => rw [splitSeg]
  rw [dif_pos h1, dif_neg (by omega), h2]

lemma splitSeg_ne_nil {cs ov : Nat} {hov : ov < cs} {tokens : List α} {start : Nat}
    (h : start < tokens.length) : splitSeg cs ov hov tokens start ≠ [] := by
  rcases le_or_lt tokens.length (start + cs) with hle | hlt
  · rw [splitSeg_last h hle]
    simp
  · rw [splitSeg_cons hlt]
    simp

lemma splitSeg_head {cs ov : Nat} {hov : ov < cs} {tokens : List α} {start : Nat}
    (h : start < tokens.length) :
    (splitSeg cs ov hov tokens start).head? = some ((tokens.drop start).take cs) := by
  rcases le_or_lt tokens.length (start + cs) with hle | hlt
  · rw [splitSeg_last h hle]
    rfl
  · rw [splitSeg_cons hlt]
    rfl

lemma length_le_of_mem_splitSeg {cs ov : Nat} (hov : ov < cs) (tokens : List α) :
    ∀ start, ∀ s ∈ splitSeg cs ov hov tokens start, s.length ≤ cs := by
  refine splitSeg.induct cs ov hov tokens
    (fun start => ∀ s ∈ splitSeg cs ov hov tokens start, s.length ≤ cs) ?_ ?_ ?_
  · intro x hx hmin s hs
    rw [splitSeg_last hx (by omega)] at hs
    simp only [List.mem_singleton] at hs
    subst hs
    simp [List.length_take]
  · intro x hx hmin ih s hs
    have hxc : x + cs < tokens.length := by omega
    have h2 : (x + cs) ⊓ tokens.length - ov = x + cs - ov := by omega
    rw [h2] at ih
    rw [splitSeg_cons hxc] at hs
    rcases List.mem_cons.mp hs with rfl | hs
    · simp [List.length_take]
    · exact ih s hs
  · intro x hx s hs
    rw [splitSeg_nil (by omega)] at hs
    simp at hs

lemma splitSeg_get_length {cs ov : Nat} (hov : ov < cs) (tokens : List α) :
    ∀ start, ∀ i, ∀ hi : i + 1 < (splitSeg cs ov hov tokens start).length,
      (splitSeg cs ov hov tokens start)[i].length = cs := by
  refine splitSeg.induct cs ov hov tokens
    (fun start => ∀ i, ∀ hi : i + 1 < (splitSeg cs ov hov tokens start).length,
      (splitSeg cs ov hov tokens start)[i].length = cs) ?_ ?_ ?_
  · intro x hx hmin i hi
    exfalso
    rw [splitSeg_last hx (by omega)] at hi
    simp only [List.length_singleton] at hi
    omega
  · intro x hx hmin ih i hi
    have hxc : x + cs < tokens.length := by omega
    have h2 : (x + cs) ⊓ tokens.length - ov = x + cs - ov := by omega
    rw [h2] at ih
    simp only [splitSeg_cons hxc, List.length_cons] at hi ⊢
    cases i with
    | zero =>
      simp only [List.getElem_cons_zero, List.length_take, List.length_drop]
      omega
    | succ i =>
      simp only [List.getElem_cons_succ]
      exact ih i (by omega)
  · intro x hx i hi
    exfalso
    rw [splitSeg_nil (by omega)] at hi
    simp at hi

lemma splitSeg_adjacent {cs ov : Nat} (hov : ov < cs) (tokens : List α) :
    ∀ start, ∀ i, ∀ hi : i + 1 < (splitSeg cs ov hov tokens start).length,
      (splitSeg cs ov hov tokens start)[i].drop (cs - ov)
        = (splitSeg cs ov hov tokens start)[i + 1].take ov := by
  refine splitSeg.induct cs ov hov tokens
    (fun start => ∀ i, ∀ hi : i + 1 < (splitSeg cs ov hov tokens start).length,
      (splitSeg cs ov hov tokens start)[i].drop (cs - ov)
        = (splitSeg cs ov hov tokens start)[i + 1].take ov) ?_ ?_ ?_
  · intro x hx hmin i hi
    exfalso
    rw [splitSeg_last hx (by omega)] at hi
    simp only [List.length_singleton] at hi
    omega
  · intro x hx hmin ih i hi
    have hxc : x + cs < tokens.length := by omega
    have h2 : (x + cs) ⊓ tokens.length - ov = x + cs - ov := by omega
    rw [h2] at ih
    simp only [splitSeg_cons hxc, List.length_cons] at hi ⊢
    cases i with
    | zero =>
      have hlt' : x + cs - ov < tokens.length := by omega
      obtain ⟨h, t, hrest⟩ := List.exists_cons_of_ne_nil ((@splitSeg_ne_nil _ cs ov hov tokens _ hlt'))
      have hh : h = (tokens.drop (x + cs - ov)).take cs := by
        have hd := @splitSeg_head _ cs ov hov tokens _ hlt'
        rw [hrest] at hd
        simpa using hd
      simp only [hrest, List.getElem_cons_zero, List.getElem_cons_succ]
      subst hh
      rw [List.drop_take, List.drop_drop, List.take_take]
      have e1 : cs - (cs - ov) = ov := by omega
      have e2 : x + (cs - ov) = x + cs - ov := by omega
      have e3 : ov ⊓ cs = ov := by omega
      rw [e1, e2, e3]
    | succ i =>
      simp only [List.getElem_cons_succ]
      exact ih i (by omega)
  · intro x hx i hi
    exfalso
    rw [splitSeg_nil (by omega)] at hi
    simp at hi

lemma joinSegs_splitSeg {cs ov : Nat} (hov : ov < cs) (tokens : List α) :
    ∀ start, start < tokens.length →
      joinSegs ov (splitSeg cs ov hov tokens start) = tokens.drop start := by
  refine splitSeg.induct cs ov hov tokens
    (fun start => start < tokens.length →
      joinSegs ov (splitSeg cs ov hov tokens start) = tokens.drop start) ?_ ?_ ?_
  · intro x hx hmin _
    rw [splitSeg_last hx (by omega), joinSegs]
    rw [List.take_of_length_le (by simp only [List.length_drop]; omega)]
    simp [joinSegs]
  · intro x hx hmin ih _
    have hxc : x + cs < tokens.length := by omega
    have h2 : (x + cs) ⊓ tokens.length - ov = x + cs - ov := by omega
    rw [h2] at ih
    have hlt' : x + cs - ov < tokens.length := by omega
    have ih' := ih hlt'
    rw [splitSeg_cons hxc, joinSegs]
    obtain ⟨h, t, hrest⟩ := List.exists_cons_of_ne_nil ((@splitSeg_ne_nil _ cs ov hov tokens _ hlt'))
    have hh : h = (tokens.drop (x + cs - ov)).take cs := by
      have hd := @splitSeg_head _ cs ov hov tokens _ hlt'
      rw [hrest] at hd
      simpa using hd
    rw [hrest] at ih' ⊢
    rw [joinSegs] at ih'
    have hlen : ov ≤ h.length := by
      rw [hh]
      simp only [List.length_take, List.length_drop]
      omega
    simp only [List.map_cons, List.flatten_cons]
    have key : h.drop ov ++ (t.map (fun u => u.drop ov)).flatten = tokens.drop (x + cs) := by
      have hc := congrArg (List.drop ov) ih'
      rw [List.drop_append_of_le_length hlen, List.drop_drop] at hc
      have e4 : x + cs - ov + ov = x + cs := by omega
      rw [e4] at hc
      exact hc
    rw [key]
    have e5 : tokens.drop (x + cs) = (tokens.drop x).drop cs := by
      rw [List.drop_drop]
    rw [e5, List.take_append_drop]
  · intro x hx hlt
    exact absurd hlt hx

lemma splitTokens_eq_splitSeg {cs ov : Nat} {hov : ov < cs} {tokens : List α}
    (h : cs < tokens.length) :
    splitTokens cs ov hov tokens = splitSeg cs ov hov tokens 0 := by
  unfold splitTokens
  rw [if_neg (by omega)]

lemma drop_min_of_length_le (l : List α) (n s : Nat) (h : l.length ≤ n) :
    l.drop (min s n) = l.drop s := by
  rcases le_total s n with hs | hs
  · rw [min_eq_left hs]
  · rw [min_eq_right hs, List.drop_of_length_le h, List.drop_of_length_le (le_trans h hs)]

lemma pySlice_eq_take_drop (l : List α) (s cs : Nat) :
    pySlice l (s : Int) (min ((s : Int) + (cs : Int)) ((l.length : Int)))
      = (l.drop s).take cs := by
  have hb : min ((s : Int) + (cs : Int)) ((l.length : Int))
      = ((min (s + cs) l.length : Nat) : Int) := by
    push_cast
    rfl
  rw [hb]
  unfold pySlice pyIdx
  rw [if_neg (by omega), if_neg (by omega)]
  simp only [Int.toNat_ofNat]
  rw [min_eq_left (by omega : min (s + cs) l.length ≤ l.length)]
  rw [drop_min_of_length_le _ _ _ (by simp [List.length_take])]
  rw [List.drop_take]
  rcases le_total (s + cs) l.length with hc | hc
  · rw [min_eq_left hc]
    congr 1
    omega
  · rw [min_eq_right hc]
    rw [List.take_of_length_le (by simp [List.length_drop])]
    rw [List.take_of_length_le (by simp only [List.length_drop]; omega)]

lemma splitLoopFuel_eq {cs ov : Nat} (hov : ov < cs) (tokens : List α) :
    ∀ fuel start, start ≤ tokens.length → tokens.length < start + fuel →
      splitLoopFuel cs ov tokens (start : Int) fuel
        = some (splitSeg cs ov hov tokens start) := by
  intro fuel
  induction fuel with
  | zero =>
    intro start h1 h2
    omega
  | succ fuel ih =>
    intro start h1 h2
    simp only [splitLoopFuel]
    rcases lt_or_ge start tokens.length with hlt | hge
    · rw [if_pos (show (start : Int) < (tokens.length : Int) by exact_mod_cast hlt)]
      rcases le_or_lt tokens.length (start + cs) with hle | hlt2
      · rw [if_pos (by omega : min ((start : Int) + (cs : Int)) ((tokens.length : Int))
            = ((tokens.length : Int)))]
        rw [pySlice_eq_take_drop, splitSeg_last hlt hle]
      · rw [if_neg (by omega : ¬ min ((start : Int) + (cs : Int)) ((tokens.length : Int))
            = ((tokens.length : Int)))]
        have harg : min ((start : Int) + (cs : Int)) ((tokens.length : Int)) - (ov : Int)
            = ((start + cs - ov : Nat) : Int) := by omega
        rw [harg, ih (start + cs - ov) (by omega) (by omega)]
        rw [pySlice_eq_take_drop, splitSeg_cons hlt2]
    · have hse : start = tokens.length := by omega
      rw [if_neg (by omega : ¬ (start : Int) < ((tokens.length : Int)))]
      rw [splitSeg_nil (by omega)]

lemma splitLoopFuel_none {cs ov : Nat} (hcs : cs ≤ ov) (tokens : List α)
    (hlen : cs < tokens.length) :
    ∀ fuel, ∀ start : Int, start ≤ 0 → splitLoopFuel cs ov tokens start fuel = none := by
  intro fuel
  induction fuel with
  | zero =>
    intro start h
    rfl
  | succ fuel ih =>
    intro start h
    simp only [splitLoopFuel]
    rw [if_pos (show start < ((tokens.length : Int)) by omega)]
    rw [if_neg (show ¬ min (start + (cs : Int)) ((tokens.length : Int))
        = ((tokens.length : Int)) by omega)]
    rw [ih (min (start + (cs : Int)) ((tokens.length : Int)) - (ov : Int)) (by omega)]

/-- C5: for every line whose token count exceeds the chunk size (with
`overlap < chunkSize`), `_split_tokens` produces consecutive windows,
each of at most `chunkSize` tokens, every window but possibly the last of
exactly `chunkSize` tokens, consecutive windows sharing exactly `overlap`
tokens (the last `overlap` tokens of a window are the first `overlap`
tokens of the next), and concatenating the windows minus the overlaps
reproduces the original token stream; a token list of at most `chunkSize`
tokens yields exactly one window. -/
theorem splitTokens_window_invariants {α : Type} (cs ov : Nat) (hov : ov < cs)
    (tokens : List α) :
    (tokens.length ≤ cs → splitTokens cs ov hov tokens = [tokens]) ∧
    (∀ s ∈ splitTokens cs ov hov tokens, s.length ≤ cs) ∧
    (∀ i, ∀ hi : i + 1 < (splitTokens cs ov hov tokens).length,
        (splitTokens cs ov hov tokens)[i].length = cs) ∧
    (∀ i, ∀ hi : i + 1 < (splitTokens cs ov hov tokens).length,
        (splitTokens cs ov hov tokens)[i].drop (cs - ov)
          = (splitTokens cs ov hov tokens)[i + 1].take ov) ∧
    joinSegs ov (splitTokens cs ov hov tokens) = tokens := by
  rcases le_or_lt tokens.length cs with hle | hlt
  · have he : splitTokens cs ov hov tokens = [tokens] := by
      unfold splitTokens
      rw [if_pos hle]
    refine ⟨fun _ => he, ?_, ?_, ?_, ?_⟩
    · intro s hs
      rw [he] at hs
      simp only [List.mem_singleton] at hs
      subst hs
      exact hle
    · intro i hi
      exfalso
      rw [he] at hi
      simp only [List.length_singleton] at hi
      omega
    · intro i hi
      exfalso
      rw [he] at hi
      simp only [List.length_singleton] at hi
      omega
    · rw [he, joinSegs]
      simp [joinSegs]
  · have he := @splitTokens_eq_splitSeg _ cs ov hov tokens hlt
    have h0 : 0 < tokens.length := by omega
    refine ⟨fun hle => absurd hle (by omega), ?_, ?_, ?_, ?_⟩
    · intro s hs
      rw [he] at hs
      exact length_le_of_mem_splitSeg hov tokens 0 s hs
    · intro i hi
      simp only [he] at hi ⊢
      exact splitSeg_get_length hov tokens 0 i hi
    · intro i hi
      simp only [he] at hi ⊢
      exact splitSeg_adjacent hov tokens 0 i hi
    · rw [he, joinSegs_splitSeg hov tokens 0 h0, List.drop_zero]

/-- Witness for C5: the invariants instantiated at the configured chunk
size 300 and overlap 50 on a concrete 400-token line. -/
theorem splitTokens_window_invariants_witness :
    (50 : Nat) < 300 ∧
    joinSegs 50 (splitTokens 300 50 (by decide) (List.range 400)) = List.range 400 ∧
    (∀ s ∈ splitTokens 300 50 (by decide) (List.range 400), s.length ≤ 300) := by
  refine ⟨by decide, ?_, ?_⟩
  · exact (splitTokens_window_invariants 300 50 (by decide) (List.range 400)).2.2.2.2
  · exact (splitTokens_window_invariants 300 50 (by decide) (List.range 400)).2.1

/-- C10: the splitting loop of `_split_tokens` terminates on every token
list when `overlap < chunkSize` (each iteration advances the cursor by
`chunkSize - overlap`, so `length + 1` iterations always suffice and the
loop computes the total function `splitTokens`), whereas with
`overlap >= chunkSize` the loop never terminates on any token list longer
than `chunkSize` tokens. -/
theorem splitTokens_terminates_iff_overlap_lt {α : Type} (cs ov : Nat) (tokens : List α) :
    (∀ hov : ov < cs,
        splitTokensFuel cs ov tokens (tokens.length + 1)
          = some (splitTokens cs ov hov tokens)) ∧
    (cs ≤ ov → cs < tokens.length →
        ∀ fuel, splitTokensFuel cs ov tokens fuel = none) := by
  constructor
  · intro hov
    unfold splitTokensFuel splitTokens
    rcases le_or_lt tokens.length cs with hle | hlt
    · rw [if_pos hle, if_pos hle]
    · rw [if_neg (by omega), if_neg (by omega)]
      have h := splitLoopFuel_eq hov tokens (tokens.length + 1) 0 (by omega) (by omega)
      simpa using h
  · intro hcs hlen fuel
    unfold splitTokensFuel
    rw [if_neg (by omega)]
    exact splitLoopFuel_none hcs tokens hlen fuel 0 le_rfl

/-- Witness for C10: with the configured values (chunk size 300, overlap
50) a 301-token line splits within 302 iterations, while with
`overlap >= chunkSize` (chunk size 1, overlap 2) a 2-token line makes the
loop run out of any amount of fuel. -/
theorem splitTokens_terminates_iff_overlap_lt_witness :
    splitTokensFuel 300 50 (List.range 301) 302
        = some (splitTokens 300 50 (by decide) (List.range 301)) ∧
    splitTokensFuel 1 2 [(0 : Nat), 1] 1000 = none := by
  constructor
  · have h := (splitTokens_terminates_iff_overlap_lt 300 50 (List.range 301)).1 (by decide)
    simpa using h
  · exact (splitTokens_terminates_iff_overlap_lt 1 2 [(0 : Nat), 1]).2 (by decide) (by decide) 1000

end LineChunker

/-! ### C8: offline zero-vector embeddings -/

/-- C8: when no backend credential is configured (`OPENAI_API_KEY` unset,
which Python's `not OPENAI_API_KEY` also reads as an empty string),
`_create_embeddings` returns the zero vector of the configured dimension
1536 for every input, deterministically and without contacting the
backend: the result does not depend on the backend function at all. -/
theorem createEmbeddings_offline_zero_vectors
    (key : Option String) (modelName : String)
    (backend backend' : String → List String → Except BackendErr (List (List ℚ)))
    (inputs : List String)
    (h : key = none ∨ key = some "") :
    createEmbeddings key embeddingDimensions modelName backend inputs
        = Except.ok (inputs.map (fun _ => List.replicate 1536 (0 : ℚ))) ∧
    createEmbeddings key embeddingDimensions modelName backend inputs
        = createEmbeddings key embeddingDimensions modelName backend' inputs := by
  have hk : key.getD "" = "" := by
    rcases h with rfl | rfl <;> rfl
  constructor
  · unfold createEmbeddings
    rw [if_pos hk]
    rfl
  · unfold createEmbeddings
    rw [if_pos hk, if_pos hk]

/-- Witness for C8: with no key, two texts embed to two 1536-dimensional
zero vectors even against a backend that always fails. -/
theorem createEmbeddings_offline_zero_vectors_witness :
    ((none : Option String) = none ∨ (none : Option String) = some "") ∧
    createEmbeddings none embeddingDimensions "text-embedding-3-small"
        (fun _ _ => Except.error BackendErr.other) ["hello", "мир"]
      = Except.ok [List.replicate 1536 (0 : ℚ), List.replicate 1536 (0 : ℚ)] := by
  refine ⟨Or.inl rfl, ?_⟩
  have h := (createEmbeddings_offline_zero_vectors none "text-embedding-3-small"
    (fun _ _ => Except.error BackendErr.other)
    (fun _ _ => Except.error BackendErr.other) ["hello", "мир"] (Or.inl rfl)).1
  rw [h]
  rfl

/-! ### C6: similarity threshold and topK bound of search -/

lemma hitOf_eq_some {t : Option String × Option EntryMeta × ℚ} {r : SearchHit}
    (h : hitOf t = some r) :
    similarityThreshold ≤ r.similarity ∧ t.1 = some r.content ∧
      r.metadata = t.2.1 ∧ r.similarity = 1 - t.2.2 := by
  rcases t with ⟨doc, meta, dist⟩
  cases doc with
  | none => exact absurd h (by simp [hitOf])
  | some d =>
    unfold hitOf at h
    simp only at h
    rcases lt_or_ge (1 - dist) similarityThreshold with hc | hc
    · rw [if_pos hc] at h
      exact Option.noConfusion h
    · rw [if_neg (not_lt.mpr hc)] at h
      have hr := Option.some.inj h
      subst hr
      exact ⟨hc, rfl, rfl, rfl⟩

lemma hitOf_eq_none {t : Option String × Option EntryMeta × ℚ}
    (h : 1 - t.2.2 < similarityThreshold) : hitOf t = none := by
  rcases t with ⟨doc, meta, dist⟩
  cases doc with
  | none => rfl
  | some d =>
    unfold hitOf
    simp only
    rw [if_pos h]

/-- C6: `VectorStore.search` post-processing returns only entries whose
similarity, computed as 1 minus the stored cosine distance, is at least
the configured threshold 0.3; it returns at most `topK` entries (the raw
reply of `collection.query` is at most `n_results = topK` long); and it
returns the empty list, not an error, when no candidate clears the
threshold. -/
theorem vsSearch_threshold_topk (topK : Nat) (res : QueryRes)
    (h : res.documents.length ≤ topK) :
    (vsSearch res).length ≤ topK ∧
    (∀ r ∈ vsSearch res, similarityThreshold ≤ r.similarity) ∧
    (∀ r ∈ vsSearch res,
        ∃ t ∈ res.documents.zip (res.metadatas.zip res.distances),
          t.1 = some r.content ∧ r.metadata = t.2.1 ∧ r.similarity = 1 - t.2.2) ∧
    ((∀ t ∈ res.documents.zip (res.metadatas.zip res.distances),
        1 - t.2.2 < similarityThreshold) → vsSearch res = []) := by
  refine ⟨?_, ?_, ?_, ?_⟩
  · calc (vsSearch res).length
        ≤ (res.documents.zip (res.metadatas.zip res.distances)).length :=
          List.length_filterMap_le _ _
      _ ≤ res.documents.length := by
          rw [List.length_zip]
          exact min_le_left _ _
      _ ≤ topK := h
  · intro r hr
    obtain ⟨t, _, hf⟩ := List.mem_filterMap.mp hr
    exact (hitOf_eq_some hf).1
  · intro r hr
    obtain ⟨t, ht, hf⟩ := List.mem_filterMap.mp hr
    exact ⟨t, ht, (hitOf_eq_some hf).2⟩
  · intro hall
    unfold vsSearch
    rw [List.filterMap_eq_nil_iff]
    intro t ht
    exact hitOf_eq_none (hall t ht)

/-- Witness for C6 on a concrete reply of three candidates (one above the
threshold, one below, one with a `None` document) and `topK = 3`. -/
theorem vsSearch_threshold_topk_witness :
    (QueryRes.mk [some "a", some "b", none] [none, none, none]
        [1/2, 9/10, 0]).documents.length ≤ 3 ∧
    (vsSearch (QueryRes.mk [some "a", some "b", none] [none, none, none]
        [1/2, 9/10, 0])).length ≤ 3 ∧
    (∀ r ∈ vsSearch (QueryRes.mk [some "a", some "b", none] [none, none, none]
        [1/2, 9/10, 0]), similarityThreshold ≤ r.similarity) := by
  refine ⟨by decide, ?_, ?_⟩
  · exact (vsSearch_threshold_topk 3 (QueryRes.mk [some "a", some "b", none]
      [none, none, none] [1/2, 9/10, 0]) (by decide)).1
  · exact (vsSearch_threshold_topk 3 (QueryRes.mk [some "a", some "b", none]
      [none, none, none] [1/2, 9/10, 0]) (by decide)).2.1

/-! ### C7: multilingual context assembly -/

lemma formatHit_head (i : Nat) (r : SearchHit) :
    (formatHit i r).data.head? = some 'И' := by
  unfold formatHit
  simp only [String.data_append, List.head?_append]
  rfl

lemma joinWith_head (sep p : String) (ps : List String) {c : Char}
    (h : p.data.head? = some c) :
    (joinWith sep (p :: ps)).data.head? = some c := by
  cases ps with
  | nil => simpa [joinWith] using h
  | cons q qs =>
    unfold joinWith
    simp only [String.data_append, List.head?_append, h]
    rfl

lemma contextForLLM_eq_sentinel_iff (searchFn : String → String → Nat → List SearchHit)
    (q lang : String) (k : Nat) :
    (contextForLLM searchFn q lang k = sentinelNoInfo ↔ searchFn q lang k = []) := by
  unfold contextForLLM
  cases hres : searchFn q lang k with
  | nil => simp [hres]
  | cons r rest =>
    simp only [hres, List.isEmpty_cons, Bool.false_eq_true, if_false]
    constructor
    · intro h
      exfalso
      have hh := joinWith_head "\n" (formatHit 1 r)
        ((enumFrom 2 rest).map (fun p => formatHit p.1 p.2)) (formatHit_head 1 r)
      simp only [enumFrom, List.map_cons] at h
      rw [h] at hh
      exact absurd hh (by decide)
    · intro h
      exact absurd h (List.cons_ne_nil r rest)

lemma multilingualContext_eq (searchFn : String → String → Nat → List SearchHit)
    (q : String) (k : Nat) :
    multilingualContext searchFn q k
      = (if contextForLLM searchFn q "en" k ≠ sentinelNoInfo
          then [("en", contextForLLM searchFn q "en" k)] else []) ++
        (if contextForLLM searchFn q "ru" k ≠ sentinelNoInfo
          then [("ru", contextForLLM searchFn q "ru" k)] else []) := rfl

/-- C7: `get_multilingual_context` computes `get_context_for_llm`
independently for `'en'` then `'ru'` in that fixed order, and the
resulting mapping contains exactly the languages whose context is not the
"no relevant information" sentinel; `get_context_for_llm` returns the
sentinel exactly when the underlying search returns zero results. -/
theorem multilingualContext_exact_languages
    (searchFn : String → String → Nat → List SearchHit) (q : String) (k : Nat) :
    ((multilingualContext searchFn q k).map Prod.fst
        = (["en", "ru"] : List String).filter
            (fun lang => decide (contextForLLM searchFn q lang k ≠ sentinelNoInfo))) ∧
    (∀ lang c, (lang, c) ∈ multilingualContext searchFn q k ↔
        ((lang = "en" ∨ lang = "ru") ∧ c = contextForLLM searchFn q lang k ∧
          c ≠ sentinelNoInfo)) ∧
    (∀ lang, contextForLLM searchFn q lang k = sentinelNoInfo ↔ searchFn q lang k = []) := by
  refine ⟨?_, ?_, fun lang => contextForLLM_eq_sentinel_iff searchFn q lang k⟩
  · by_cases hen : contextForLLM searchFn q "en" k = sentinelNoInfo <;>
      by_cases hru : contextForLLM searchFn q "ru" k = sentinelNoInfo <;>
        simp [multilingualContext_eq, hen, hru]
  · intro lang c
    rw [multilingualContext_eq]
    by_cases hen : contextForLLM searchFn q "en" k = sentinelNoInfo
    · rw [if_neg (not_not_intro hen)]
      by_cases hru : contextForLLM searchFn q "ru" k = sentinelNoInfo
      · rw [if_neg (not_not_intro hru)]
        simp only [List.nil_append, List.not_mem_nil, false_iff]
        rintro ⟨rfl | rfl, rfl, hc⟩
        · exact hc hen
        · exact hc hru
      · rw [if_pos hru]
        simp only [List.nil_append, List.mem_singleton, Prod.mk.injEq]
        constructor
        · rintro ⟨rfl, rfl⟩
          exact ⟨Or.inr rfl, rfl, hru⟩
        · rintro ⟨rfl | rfl, rfl, hc⟩
          · exact absurd hen hc
          · exact ⟨rfl, rfl⟩
    · rw [if_pos hen]
      by_cases hru : contextForLLM searchFn q "ru" k = sentinelNoInfo
      · rw [if_neg (not_not_intro hru)]
        simp only [List.append_nil, List.mem_singleton, Prod.mk.injEq]
        constructor
        · rintro ⟨rfl, rfl⟩
          exact ⟨Or.inl rfl, rfl, hen⟩
        · rintro ⟨rfl | rfl, rfl, hc⟩
          · exact ⟨rfl, rfl⟩
          · exact absurd hru hc
      · rw [if_pos hru]
        simp only [List.cons_append, List.nil_append, List.mem_cons,
          List.mem_singleton, List.not_mem_nil, or_false, Prod.mk.injEq]
        constructor
        · rintro (⟨rfl, rfl⟩ | ⟨rfl, rfl⟩)
          · exact ⟨Or.inl rfl, rfl, hen⟩
          · exact ⟨Or.inr rfl, rfl, hru⟩
        · rintro ⟨rfl | rfl, rfl, hc⟩
          · exact Or.inl ⟨rfl, rfl⟩
          · exact Or.inr ⟨rfl, rfl⟩

/-! ### C2: document-type classification is per chunk, not per document -/

lemma processLines_doctype {τ : Type} (enc : String → List τ) (dec : List τ → String)
    (cs ov : Nat) (hov : ov < cs) (docId filePath language : String) :
    ∀ ln rawLines,
      ∀ c ∈ LineChunker.processLines enc dec cs ov hov docId filePath language ln rawLines,
        c.document_type = LineChunker.detectDocumentType c.content := by
  intro ln rawLines
  induction rawLines generalizing ln with
  | nil =>
    intro c hc
    simp [LineChunker.processLines] at hc
  | cons raw rest ih =>
    intro c hc
    rw [LineChunker.processLines] at hc
    rcases List.mem_append.mp hc with h1 | h2
    · by_cases hb : stripStr raw = ""
      · rw [if_pos hb] at h1
        simp at h1
      · rw [if_neg hb] at h1
        simp only [LineChunker.lineChunks] at h1
        obtain ⟨p, _, hceq⟩ := List.mem_map.mp h1
        subst hceq
        rfl
    · exact ih (ln + 1) c h2

/-- C2 (amended): the document-type category of a chunk is computed per
chunk, by the fixed priority-ordered case-insensitive keyword matching of
`_detect_document_type` applied to that chunk's own decoded content —
not once from the whole source document — so chunks of one document need
not share a `documentType`. -/
theorem processDocument_doctype_per_chunk {τ : Type} (enc : String → List τ)
    (dec : List τ → String) (cs ov : Nat) (hov : ov < cs)
    (rawLines : List String) (docId filePath language : String) :
    ∀ c ∈ LineChunker.processDocument enc dec cs ov hov rawLines docId filePath language,
      c.document_type = LineChunker.detectDocumentType c.content := by
  intro c hc
  exact processLines_doctype enc dec cs ov hov docId filePath language 1 rawLines c hc

/-- Witness for C2 (amended) on a concrete two-line document with the
configured chunk size and overlap. -/
theorem processDocument_doctype_per_chunk_witness :
    (50 : Nat) < 300 ∧
    (∀ c ∈ LineChunker.processDocument charEnc charDec 300 50 (by decide)
        ["betting", "privacy"] "rules" "data/en/rules.txt" "en",
      c.document_type = LineChunker.detectDocumentType c.content) :=
  ⟨by decide, processDocument_doctype_per_chunk charEnc charDec 300 50 (by decide)
    ["betting", "privacy"] "rules" "data/en/rules.txt" "en"⟩

/-- Counterexample for C2 as stated: the two chunks produced from the
concrete two-line document `betting` / `privacy` carry two different
document types, so not every chunk of a document shares one
`documentType` computed from the whole document text. -/
theorem processDocument_doctype_counterexample :
    (LineChunker.processDocument charEnc charDec 300 50 (by decide)
        ["betting", "privacy"] "rules" "data/en/rules.txt" "en").map
          Chunk.document_type
      = ["sportsbook_rules", "privacy_policy"] ∧
    ((LineChunker.processDocument charEnc charDec 300 50 (by decide)
        ["betting", "privacy"] "rules" "data/en/rules.txt" "en").all (fun c1 =>
      (LineChunker.processDocument charEnc charDec 300 50 (by decide)
        ["betting", "privacy"] "rules" "data/en/rules.txt" "en").all (fun c2 =>
        c1.document_type == c2.document_type))) = false := by
  constructor
  · decide
  · decide

/-! ### C9: promotions files are always skipped -/

lemma listIsPre_map_toLower {p l : List Char} (h : listIsPre p l = true) :
    listIsPre (p.map Char.toLower) (l.map Char.toLower) = true := by
  induction p generalizing l with
  | nil => rfl
  | cons a as ih =>
    cases l with
    | nil => exact absurd h (by simp [listIsPre])
    | cons b bs =>
      unfold listIsPre at h
      rw [Bool.and_eq_true] at h
      obtain ⟨hab, htail⟩ := h
      have hab' : a = b := by simpa using hab
      subst hab'
      simp only [List.map_cons]
      unfold listIsPre
      rw [Bool.and_eq_true]
      exact ⟨by simp, ih htail⟩

lemma listHasSub_map_toLower {p l : List Char} (h : listHasSub p l = true) :
    listHasSub (p.map Char.toLower) (l.map Char.toLower) = true := by
  induction l with
  | nil =>
    unfold listHasSub at h ⊢
    cases p with
    | nil => rfl
    | cons a as => exact absurd h (by simp [listIsPre])
  | cons b bs ih =>
    unfold listHasSub at h
    rw [Bool.or_eq_true] at h
    simp only [List.map_cons]
    unfold listHasSub
    rw [Bool.or_eq_true]
    rcases h with h | h
    · exact Or.inl (by simpa using listIsPre_map_toLower h)
    · exact Or.inr (ih h)

lemma strContains_lowerStr {s p : String} (h : strContains s p = true)
    (hp : lowerStr p = p) : strContains (lowerStr s) p = true := by
  unfold strContains at h ⊢
  unfold lowerStr
  have hpd : p.data = p.data.map Char.toLower := by
    conv_lhs => rw [← hp]
    rfl
  rw [hpd]
  exact listHasSub_map_toLower h

/-- C9: a file whose name contains the substring `promotions` is always
counted `skipped` by the per-file step of `reindexTree`, with a
`files_info` record `(path, skipped, 0 chunks)` appended to the walk's
report, the stored entries left untouched, and no segmentation or
embedding performed — the step's outcome is independent of the chunker,
the embedder, the file's mtime and the prior store state. -/
theorem promotions_always_skipped
    (chunkFn chunkFn' : String → String → Except Unit (List Chunk))
    (embedTexts embedTexts' : List String → Except Unit (List (List ℚ)))
    (dataDir lang : String) (f : FileEntry) (st : List Entry)
    (hname : strContains f.name "promotions" = true) :
    stepFile chunkFn embedTexts dataDir lang f st
        = (Except.ok (FileStatus.skipped, 0), st) ∧
    stepFile chunkFn embedTexts dataDir lang f st
        = stepFile chunkFn' embedTexts' dataDir lang f st ∧
    (∀ rest acc, runFiles chunkFn embedTexts dataDir ((lang, f) :: rest) st acc
        = runFiles chunkFn embedTexts dataDir rest st
            (bumpStats acc (pathJoin (pathJoin dataDir lang) f.name)
              FileStatus.skipped 0)) ∧
    (∀ acc p, (bumpStats acc p FileStatus.skipped 0).files
          = acc.files ++ [⟨p, "skipped", 0⟩] ∧
        (bumpStats acc p FileStatus.skipped 0).skipped = acc.skipped + 1 ∧
        (bumpStats acc p FileStatus.skipped 0).added = acc.added ∧
        (bumpStats acc p FileStatus.skipped 0).updated = acc.updated) := by
  have hcode : strContains (lowerStr f.name) "promotions" = true :=
    strContains_lowerStr hname (by decide)
  have hstep : stepFile chunkFn embedTexts dataDir lang f st
      = (Except.ok (FileStatus.skipped, 0), st) := by
    unfold stepFile
    rw [if_pos hcode]
  refine ⟨hstep, ?_, ?_, ?_⟩
  · rw [hstep]
    unfold stepFile
    rw [if_pos hcode]
  · intro rest acc
    conv_lhs => rw [runFiles]
    rw [hstep]
  · intro acc p
    refine ⟨rfl, rfl, rfl, rfl⟩

/-- Witness for C9: the concrete file `promotions.txt` with a nonempty
prior store and a chunker that would chunk it is nevertheless skipped and
the store unchanged. -/
theorem promotions_always_skipped_witness :
    strContains "promotions.txt" "promotions" = true ∧
    stepFile chunkFailOnA zeroEmbed "data" "en" ⟨"promotions.txt", 7⟩
        [⟨"id0", [0], ⟨1, 0, 1, "promotions", "data/en/promotions.txt",
          some 3, "en", "general", none⟩, "old"⟩]
      = (Except.ok (FileStatus.skipped, 0),
        [⟨"id0", [0], ⟨1, 0, 1, "promotions", "data/en/promotions.txt",
          some 3, "en", "general", none⟩, "old"⟩]) := by
  refine ⟨by decide, ?_⟩
  exact (promotions_always_skipped chunkFailOnA chunkFailOnA zeroEmbed zeroEmbed
    "data" "en" ⟨"promotions.txt", 7⟩
    [⟨"id0", [0], ⟨1, 0, 1, "promotions", "data/en/promotions.txt",
      some 3, "en", "general", none⟩, "old"⟩] (by decide)).1

/-! ### C4: added / updated / skipped trichotomy per eligible file -/

lemma headBind_mtime_of_same {st : List Entry} {p : String} {m : Nat}
    (hne : entriesWithPath st p ≠ [])
    (hsame : ∀ e ∈ entriesWithPath st p, e.metadata.mtime = some m) :
    ((entriesWithPath st p).head?.bind (fun e => e.metadata.mtime)) = some m := by
  obtain ⟨e, es, hl⟩ := List.exists_cons_of_ne_nil hne
  rw [hl]
  simp only [List.head?_cons, Option.bind_some]
  exact hsame e (by rw [hl]; exact List.mem_cons_self e es)

/-- C4: for every eligible non-promotions `.txt` file whose stored
entries (if any) all record one mtime `m`, and whose segmentation and
embedding succeed, exactly one of three outcomes occurs in the per-file
step of `reindexTree`: no stored entries for the path — counted `added`
and the new records upserted; entries with recorded mtime different from
the file's — all entries of the path deleted, then the new records
upserted, counted `updated`; recorded mtime equal — counted `skipped`
with the store untouched and neither the chunker nor the embedder
consulted (the step's result is independent of both). -/
theorem stepFile_trichotomy
    (chunkFn chunkFn' : String → String → Except Unit (List Chunk))
    (embedTexts embedTexts' : List String → Except Unit (List (List ℚ)))
    (dataDir lang : String) (f : FileEntry) (st : List Entry) (m : Nat)
    (chunks : List Chunk) (records : List Entry)
    (hnp : strContains (lowerStr f.name) "promotions" = false)
    (hsame : ∀ e ∈ entriesWithPath st (pathJoin (pathJoin dataDir lang) f.name),
        e.metadata.mtime = some m)
    (hch : chunkFn (pathJoin (pathJoin dataDir lang) f.name) lang = Except.ok chunks)
    (hemb : embedChunks embedTexts (chunks.map (stampMtime f.mtime))
        = Except.ok records) :
    (entriesWithPath st (pathJoin (pathJoin dataDir lang) f.name) = [] →
        stepFile chunkFn embedTexts dataDir lang f st
          = (Except.ok (FileStatus.added, chunks.length), upsertAll st records)) ∧
    (entriesWithPath st (pathJoin (pathJoin dataDir lang) f.name) ≠ [] → m ≠ f.mtime →
        stepFile chunkFn embedTexts dataDir lang f st
          = (Except.ok (FileStatus.updated, chunks.length),
              upsertAll (deleteIds st
                ((entriesWithPath st (pathJoin (pathJoin dataDir lang) f.name)).map
                  (fun e => e.id))) records)) ∧
    (entriesWithPath st (pathJoin (pathJoin dataDir lang) f.name) ≠ [] → m = f.mtime →
        stepFile chunkFn embedTexts dataDir lang f st
            = (Except.ok (FileStatus.skipped, 0), st) ∧
          stepFile chunkFn embedTexts dataDir lang f st
            = stepFile chunkFn' embedTexts' dataDir lang f st) := by
  refine ⟨?_, ?_, ?_⟩
  · intro hex
    unfold stepFile
    rw [if_neg (by simp [hnp]), if_pos (by simp [hex])]
    unfold indexFile
    rw [hch]
    simp only [hemb]
  · intro hne hm
    unfold stepFile
    rw [if_neg (by simp [hnp]),
      if_neg (by simp [List.isEmpty_iff, hne]),
      if_neg (by simp [headBind_mtime_of_same hne hsame, hm])]
    unfold indexFile
    rw [hch]
    simp only [hemb]
  · intro hne hm
    subst hm
    have hskip : stepFile chunkFn embedTexts dataDir lang f st
        = (Except.ok (FileStatus.skipped, 0), st) := by
      unfold stepFile
      rw [if_neg (by simp [hnp]),
        if_neg (by simp [List.isEmpty_iff, hne]),
        if_pos (by simp [headBind_mtime_of_same hne hsame])]
    refine ⟨hskip, ?_⟩
    rw [hskip]
    unfold stepFile
    rw [if_neg (by simp [hnp]),
      if_neg (by simp [List.isEmpty_iff, hne]),
      if_pos (by simp [headBind_mtime_of_same hne hsame])]

/-- Witness for C4: a fresh file (`b.txt`, empty store) is counted added
and its single chunk record is inserted. -/
theorem stepFile_trichotomy_witness :
    stepFile chunkFailOnA zeroEmbed "data" "en" ⟨"b.txt", 2⟩ []
      = (Except.ok (FileStatus.added, 1),
        upsertAll [] [⟨"b_L1_S0", [0], ⟨1, 0, 1, "b", "data/en/b.txt",
          some 2, "en", "general", none⟩, "x"⟩]) := by
  exact (stepFile_trichotomy chunkFailOnA chunkFailOnA zeroEmbed zeroEmbed
    "data" "en" ⟨"b.txt", 2⟩ [] 0
    [⟨"x", ⟨1, 0, 1, "b", "data/en/b.txt", none⟩, "b_L1_S0", "en", "general", "Line 1"⟩]
    [⟨"b_L1_S0", [0], ⟨1, 0, 1, "b", "data/en/b.txt", some 2, "en", "general", none⟩, "x"⟩]
    (by decide) (by decide) (by rfl) (by rfl)).1 rfl

/-! ### C1: a per-file failure aborts the tree walk -/

lemma indexFile_error_store {chunkFn : String → String → Except Unit (List Chunk)}
    {embedTexts : List String → Except Unit (List (List ℚ))}
    {path lang : String} {mtime : Nat} {status : FileStatus}
    {st : List Entry} {e : Unit} {st₂ : List Entry}
    (h : indexFile chunkFn embedTexts path lang mtime status st = (Except.error e, st₂)) :
    st₂ = st := by
  unfold indexFile at h
  cases hch : chunkFn path lang with
  | error e' =>
    rw [hch] at h
    exact ((Prod.ext_iff.mp h).2).symm
  | ok chunks =>
    rw [hch] at h
    cases hemb : embedChunks embedTexts (chunks.map (stampMtime mtime)) with
    | error e' =>
      simp only [hemb] at h
      exact ((Prod.ext_iff.mp h).2).symm
    | ok records =>
      simp only [hemb] at h
      exact absurd (Prod.ext_iff.mp h).1 (by simp)

lemma entriesWithPath_deleteIds_other {st : List Entry} {ids : List String} {p q : String}
    (hq : q ≠ p) (hmem : ∀ e ∈ st, e.id ∈ ids → e.metadata.path = p) :
    entriesWithPath (deleteIds st ids) q = entriesWithPath st q := by
  unfold entriesWithPath deleteIds
  rw [List.filter_filter]
  apply List.filter_congr
  intro e he
  by_cases hid : e.id ∈ ids
  · have hp := hmem e he hid
    have : (e.metadata.path == q) = false := by
      simp [hp]
      exact fun hc => hq hc.symm
    simp [this]
  · simp [hid]

lemma mem_pathIds_path {st : List Entry} {p : String}
    (hnodup : (st.map (fun x => x.id)).Nodup) :
    ∀ e ∈ st, e.id ∈ (entriesWithPath st p).map (fun x => x.id) →
      e.metadata.path = p := by
  intro e he hid
  obtain ⟨e', he', hide⟩ := List.mem_map.mp hid
  have he'st : e' ∈ st := List.mem_of_mem_filter he'
  have heq : e = e' := List.inj_on_of_nodup_map hnodup he he'st hide.symm
  subst heq
  have := List.of_mem_filter he'
  simpa using this

lemma stepFile_error_store {chunkFn : String → String → Except Unit (List Chunk)}
    {embedTexts : List String → Except Unit (List (List ℚ))}
    {dataDir lang : String} {f : FileEntry} {st : List Entry} {e : Unit}
    {st₂ : List Entry}
    (hnodup : (st.map (fun x => x.id)).Nodup)
    (hstep : stepFile chunkFn embedTexts dataDir lang f st = (Except.error e, st₂)) :
    ∀ q, q ≠ pathJoin (pathJoin dataDir lang) f.name →
      entriesWithPath st₂ q = entriesWithPath st q := by
  intro q hq
  unfold stepFile at hstep
  by_cases hpromo : strContains (lowerStr f.name) "promotions" = true
  · rw [if_pos hpromo] at hstep
    exact absurd (Prod.ext_iff.mp hstep).1 (by simp)
  · rw [if_neg hpromo] at hstep
    by_cases hemp :
        (entriesWithPath st (pathJoin (pathJoin dataDir lang) f.name)).isEmpty = true
    · rw [if_pos hemp] at hstep
      rw [indexFile_error_store hstep]
    · rw [if_neg hemp] at hstep
      by_cases hmt : (((entriesWithPath st (pathJoin (pathJoin dataDir lang) f.name)).head?.bind
          (fun x => x.metadata.mtime)) == some f.mtime) = true
      · rw [if_pos hmt] at hstep
        exact absurd (Prod.ext_iff.mp hstep).1 (by simp)
      · rw [if_neg hmt] at hstep
        rw [indexFile_error_store hstep]
        exact entriesWithPath_deleteIds_other hq (mem_pathIds_path hnodup)

/-- C1 (amended): the per-file failure handling of `reindexTree` is
abort, not log-and-continue: when the walk has successfully processed the
files `pre` and the chunker or embedder then raises on the next file, the
whole run returns that error at once — the files after the failing one
are never visited and contribute nothing — while the stored entries of
every path other than the failing file's are left exactly as they were
when the failing file was reached (assuming the store's ids are unique,
which the id-keyed collection guarantees). -/
theorem loadDocuments_failure_aborts
    (chunkFn : String → String → Except Unit (List Chunk))
    (embedTexts : List String → Except Unit (List (List ℚ)))
    (dataDir : String) (pre post : List (String × FileEntry))
    (lang : String) (f : FileEntry) (st st₁ : List Entry)
    (acc acc₁ : ReindexStats) (e : Unit) (st₂ : List Entry)
    (hpre : runFiles chunkFn embedTexts dataDir pre st acc = (Except.ok acc₁, st₁))
    (hfail : stepFile chunkFn embedTexts dataDir lang f st₁ = (Except.error e, st₂))
    (hnodup : (st₁.map (fun x => x.id)).Nodup) :
    runFiles chunkFn embedTexts dataDir (pre ++ (lang, f) :: post) st acc
        = (Except.error e, st₂) ∧
    ∀ q, q ≠ pathJoin (pathJoin dataDir lang) f.name →
      entriesWithPath st₂ q = entriesWithPath st₁ q := by
  refine ⟨?_, stepFile_error_store hnodup hfail⟩
  induction pre generalizing st acc with
  | nil =>
    have h1 : acc₁ = acc ∧ st₁ = st := by
      unfold runFiles at hpre
      have := Prod.ext_iff.mp hpre
      exact ⟨(Except.ok.inj this.1.symm), this.2.symm⟩
    obtain ⟨rfl, rfl⟩ := h1
    rw [List.nil_append]
    conv_lhs => rw [runFiles]
    rw [hfail]
  | cons hd pre ih =>
    obtain ⟨l0, f0⟩ := hd
    rw [List.cons_append]
    conv_lhs => rw [runFiles]
    rw [runFiles] at hpre
    cases hs : stepFile chunkFn embedTexts dataDir l0 f0 st with
    | mk r st' =>
      cases r with
      | error e0 =>
        rw [hs] at hpre
        exact absurd (Prod.ext_iff.mp hpre).1 (by simp)
      | ok v =>
        obtain ⟨fs0, n0⟩ := v
        rw [hs] at hpre
        exact ih _ _ hpre

/-- Witness for C1 (amended): with the concrete two-file tree, processing
aborts at `a.txt` and `b.txt` is never visited. -/
theorem loadDocuments_failure_aborts_witness :
    runFiles chunkFailOnA zeroEmbed "data"
        ([] ++ ("en", (⟨"a.txt", 1⟩ : FileEntry)) :: [("en", (⟨"b.txt", 2⟩ : FileEntry))])
        [] ⟨0, 0, 0, 0, []⟩
      = (Except.error (), []) ∧
    entriesWithPath ([] : List Entry) "data/en/b.txt"
      = entriesWithPath ([] : List Entry) "data/en/b.txt" := by
  have h := loadDocuments_failure_aborts chunkFailOnA zeroEmbed "data"
    [] [("en", (⟨"b.txt", 2⟩ : FileEntry))] "en" (⟨"a.txt", 1⟩ : FileEntry)
    [] [] ⟨0, 0, 0, 0, []⟩ ⟨0, 0, 0, 0, []⟩ () [] rfl rfl (by simp)
  exact ⟨h.1, h.2 "data/en/b.txt" (by decide)⟩

/-- Counterexample for C1 as stated: on the concrete tree `data/en` with
files `a.txt` (whose segmentation raises) and `b.txt` (which would chunk
fine), `load_documents` returns the error instead of continuing, and the
sibling `b.txt` never contributes entries to the store. -/
theorem loadDocuments_failure_counterexample :
    (loadDocuments chunkFailOnA zeroEmbed fsTwoFiles "data" []).1 = Except.error () ∧
    entriesWithPath (loadDocuments chunkFailOnA zeroEmbed fsTwoFiles "data" []).2
        "data/en/b.txt" = [] := by
  exact ⟨rfl, rfl⟩

/-! ### C3: idempotent reindexing -/

lemma mem_zipWith {α β γ : Type} {f : α → β → γ} :
    ∀ {as : List α} {bs : List β} {c : γ}, c ∈ List.zipWith f as bs →
      ∃ a ∈ as, ∃ b ∈ bs, c = f a b := by
  intro as
  induction as with
  | nil =>
    intro bs c hc
    simp at hc
  | cons a as ih =>
    intro bs c hc
    cases bs with
    | nil => simp at hc
    | cons b bs =>
      rw [List.zipWith_cons_cons] at hc
      rcases List.mem_cons.mp hc with rfl | hc
      · exact ⟨a, List.mem_cons_self a as, b, List.mem_cons_self b bs, rfl⟩
      · obtain ⟨a', ha', b', hb', rfl⟩ := ih hc
        exact ⟨a', List.mem_cons_of_mem a ha', b', List.mem_cons_of_mem b hb', rfl⟩

lemma upsertOne_fresh {st : List Entry} {r : Entry}
    (h : r.id ∉ st.map (fun e => e.id)) : upsertOne st r = st ++ [r] := by
  unfold upsertOne
  rw [if_neg ?_]
  simp only [List.any_eq_true]
  rintro ⟨x, hx, hxe⟩
  exact h (List.mem_map.mpr ⟨x, hx, by simpa using hxe⟩)

lemma upsertAll_fresh :
    ∀ {recs st : List Entry}, (∀ r ∈ recs, r.id ∉ st.map (fun e => e.id)) →
      ((recs.map (fun r => r.id)).Nodup) → upsertAll st recs = st ++ recs := by
  intro recs
  induction recs with
  | nil =>
    intro st _ _
    simp [upsertAll]
  | cons r rest ih =>
    intro st hfresh hnd
    show List.foldl upsertOne st (r :: rest) = st ++ r :: rest
    rw [List.foldl_cons, upsertOne_fresh (hfresh r (List.mem_cons_self r rest))]
    rw [List.map_cons, List.nodup_cons] at hnd
    have hres : upsertAll (st ++ [r]) rest = (st ++ [r]) ++ rest := by
      apply ih
      · intro x hx
        rw [List.map_append, List.mem_append]
        rintro (hin | hin)
        · exact hfresh x (List.mem_cons_of_mem r hx) hin
        · simp only [List.map_cons, List.map_nil, List.mem_singleton] at hin
          exact hnd.1 (hin ▸ List.mem_map.mpr ⟨x, hx, rfl⟩)
      · exact hnd.2
    rw [show List.foldl upsertOne (st ++ [r]) rest = upsertAll (st ++ [r]) rest from rfl]
    rw [hres, List.append_assoc, List.singleton_append]

lemma embedChunks_okEmbed {E : List String → List (List ℚ)} {cl : List Chunk}
    (h : cl.length ≤ (E (cl.map (fun c => c.content))).length) :
    embedChunks (okEmbed E) cl
      = Except.ok (List.zipWith entryOfChunk cl (E (cl.map (fun c => c.content)))) := by
  simp only [embedChunks, okEmbed]
  rw [if_pos h]

lemma chunkRecs_embed {C : String → String → List Chunk}
    {E : List String → List (List ℚ)} (hE : ∀ ts, ts.length ≤ (E ts).length)
    (dataDir : String) (q : String × FileEntry) :
    embedChunks (okEmbed E) ((C (pairPath dataDir q) q.1).map (stampMtime q.2.mtime))
      = Except.ok (chunkRecs C E dataDir q) := by
  unfold chunkRecs
  apply embedChunks_okEmbed
  have := hE (((C (pairPath dataDir q) q.1).map (stampMtime q.2.mtime)).map
    (fun c => c.content))
  simpa using this

lemma zipWith_entry_ids :
    ∀ (as : List Chunk) (bs : List (List ℚ)), as.length ≤ bs.length →
      (List.zipWith entryOfChunk as bs).map (fun r => r.id)
        = as.map (fun c => c.chunk_id) := by
  intro as
  induction as with
  | nil =>
    intro bs _
    simp
  | cons a as ih =>
    intro bs h
    cases bs with
    | nil => simp at h
    | cons b bs =>
      rw [List.zipWith_cons_cons, List.map_cons, List.map_cons]
      simp only [List.length_cons, Nat.add_le_add_iff_right] at h
      rw [ih bs h]
      rfl

lemma chunkRecs_ids {C : String → String → List Chunk}
    {E : List String → List (List ℚ)} (hE : ∀ ts, ts.length ≤ (E ts).length)
    (dataDir : String) (q : String × FileEntry) :
    (chunkRecs C E dataDir q).map (fun r => r.id)
      = (C (pairPath dataDir q) q.1).map (fun c => c.chunk_id) := by
  unfold chunkRecs
  have h2 := hE (((C (pairPath dataDir q) q.1).map (stampMtime q.2.mtime)).map
    (fun c => c.content))
  rw [zipWith_entry_ids _ _ (by simpa using h2)]
  rw [List.map_map]
  rfl

lemma chunkRecs_path {C : String → String → List Chunk}
    {E : List String → List (List ℚ)} {dataDir : String} {q : String × FileEntry}
    (hpath : ∀ c ∈ C (pairPath dataDir q) q.1, c.metadata.path = pairPath dataDir q) :
    ∀ r ∈ chunkRecs C E dataDir q, r.metadata.path = pairPath dataDir q := by
  intro r hr
  unfold chunkRecs at hr
  obtain ⟨a, ha, b, hb, rfl⟩ := mem_zipWith hr
  obtain ⟨c0, hc0, rfl⟩ := List.mem_map.mp ha
  simpa [entryOfChunk, stampMtime] using hpath c0 hc0

lemma chunkRecs_mtime {C : String → String → List Chunk}
    {E : List String → List (List ℚ)} {dataDir : String} {q : String × FileEntry} :
    ∀ r ∈ chunkRecs C E dataDir q, r.metadata.mtime = some q.2.mtime := by
  intro r hr
  unfold chunkRecs at hr
  obtain ⟨a, ha, b, hb, rfl⟩ := mem_zipWith hr
  obtain ⟨c0, hc0, rfl⟩ := List.mem_map.mp ha
  simp [entryOfChunk, stampMtime]

lemma chunkRecs_ne_nil {C : String → String → List Chunk}
    {E : List String → List (List ℚ)} (hE : ∀ ts, ts.length ≤ (E ts).length)
    {dataDir : String} {q : String × FileEntry}
    (hne : C (pairPath dataDir q) q.1 ≠ []) : chunkRecs C E dataDir q ≠ [] := by
  apply List.ne_nil_of_length_pos
  unfold chunkRecs
  rw [List.length_zipWith]
  have h1 : 0 < ((C (pairPath dataDir q) q.1).map (stampMtime q.2.mtime)).length := by
    simpa [List.length_map] using List.length_pos.mpr hne
  have h2 := hE (((C (pairPath dataDir q) q.1).map (stampMtime q.2.mtime)).map
    (fun c => c.content))
  simp only [List.length_map] at h1 h2 ⊢
  omega

lemma entriesWithPath_eq_nil {xs : List Entry} {p : String}
    (h : ∀ r ∈ xs, r.metadata.path ≠ p) : entriesWithPath xs p = [] := by
  unfold entriesWithPath
  rw [List.filter_eq_nil_iff]
  intro r hr
  simp [h r hr]

lemma entriesWithPath_eq_self {xs : List Entry} {p : String}
    (h : ∀ r ∈ xs, r.metadata.path = p) : entriesWithPath xs p = xs := by
  unfold entriesWithPath
  rw [List.filter_eq_self]
  intro r hr
  simp [h r hr]

lemma entriesWithPath_append (xs ys : List Entry) (p : String) :
    entriesWithPath (xs ++ ys) p = entriesWithPath xs p ++ entriesWithPath ys p := by
  unfold entriesWithPath
  rw [List.filter_append]

lemma runFiles_cons_ok {chunkFn : String → String → Except Unit (List Chunk)}
    {embedTexts : List String → Except Unit (List (List ℚ))}
    {dataDir lang : String} {f : FileEntry} {st st' : List Entry}
    {fs : FileStatus} {n : Nat} {rest : List (String × FileEntry)} {acc : ReindexStats}
    (hstep : stepFile chunkFn embedTexts dataDir lang f st = (Except.ok (fs, n), st')) :
    runFiles chunkFn embedTexts dataDir ((lang, f) :: rest) st acc
      = runFiles chunkFn embedTexts dataDir rest st'
          (bumpStats acc (pathJoin (pathJoin dataDir lang) f.name) fs n) := by
  conv_lhs => rw [runFiles]
  rw [hstep]

lemma runFiles_all_current {C : String → String → List Chunk}
    {E : List String → List (List ℚ)} {dataDir : String} :
    ∀ (l : List (String × FileEntry)) (st : List Entry) (acc : ReindexStats),
      (∀ q ∈ l, strContains (lowerStr q.2.name) "promotions" = false →
        entriesWithPath st (pairPath dataDir q) ≠ [] ∧
        ((entriesWithPath st (pairPath dataDir q)).head?.bind
          (fun x => x.metadata.mtime)) = some q.2.mtime) →
      runFiles (okChunkFn C) (okEmbed E) dataDir l st acc
        = (Except.ok ⟨acc.added, acc.updated, acc.skipped + l.length, acc.chunks_added,
            acc.files ++ l.map (fun q => ⟨pairPath dataDir q, "skipped", 0⟩)⟩, st) := by
  intro l
  induction l with
  | nil =>
    intro st acc _
    cases acc
    simp [runFiles]
  | cons q l ih =>
    intro st acc hcur
    obtain ⟨lang, f⟩ := q
    have hstep : stepFile (okChunkFn C) (okEmbed E) dataDir lang f st
        = (Except.ok (FileStatus.skipped, 0), st) := by
      cases hsc : strContains (lowerStr f.name) "promotions" with
      | true =>
        unfold stepFile
        rw [if_pos hsc]
      | false =>
        have hc := hcur (lang, f) (List.mem_cons_self _ _) hsc
        simp only [pairPath] at hc
        unfold stepFile
        rw [if_neg (by simp [hsc]), if_neg (by simp [List.isEmpty_iff, hc.1]),
          if_pos ?_]
        rw [hc.2]
        exact beq_self_eq_true _
    have htail : ∀ q ∈ l, strContains (lowerStr q.2.name) "promotions" = false →
        entriesWithPath st (pairPath dataDir q) ≠ [] ∧
        ((entriesWithPath st (pairPath dataDir q)).head?.bind
          (fun x => x.metadata.mtime)) = some q.2.mtime :=
      fun q hq hp => hcur q (List.mem_cons_of_mem _ hq) hp
    rw [runFiles_cons_ok hstep, ih st (bumpStats acc
      (pathJoin (pathJoin dataDir lang) f.name) FileStatus.skipped 0) htail]
    simp only [bumpStats, statusStr, List.length_cons, List.map_cons, pairPath,
      Nat.add_zero]
    rw [show acc.skipped + 1 + l.length = acc.skipped + (l.length + 1) by omega]
    rw [List.append_assoc, List.singleton_append]

lemma runFiles_fresh {C : String → String → List Chunk}
    {E : List String → List (List ℚ)} (hE : ∀ ts, ts.length ≤ (E ts).length)
    {dataDir : String} :
    ∀ (l : List (String × FileEntry)) (st0 : List Entry) (acc : ReindexStats),
      (∀ q ∈ l, entriesWithPath st0 (pairPath dataDir q) = []) →
      (∀ q ∈ l, ∀ c ∈ C (pairPath dataDir q) q.1, c.metadata.path = pairPath dataDir q) →
      ((l.map (pairPath dataDir)).Nodup) →
      (∀ q ∈ l, ∀ i ∈ (chunkRecs C E dataDir q).map (fun r => r.id),
          i ∉ st0.map (fun e => e.id)) →
      ((l.map (fun q => (chunkRecs C E dataDir q).map (fun r => r.id))).Pairwise
        (fun a b => ∀ x ∈ a, x ∉ b)) →
      (∀ q ∈ l, ((chunkRecs C E dataDir q).map (fun r => r.id)).Nodup) →
      ∃ acc', runFiles (okChunkFn C) (okEmbed E) dataDir l st0 acc
          = (Except.ok acc',
            st0 ++ ((nonPromoFiles l).map (chunkRecs C E dataDir)).flatten) := by
  intro l
  induction l with
  | nil =>
    intro st0 acc _ _ _ _ _ _
    exact ⟨acc, by simp [runFiles, nonPromoFiles]⟩
  | cons q l ih =>
    intro st0 acc hnil hpath hnd hfresh hdisj hnodupids
    obtain ⟨lang, f⟩ := q
    have hndtail : ((l.map (pairPath dataDir)).Nodup) :=
      (List.nodup_cons.mp (by simpa using hnd)).2
    have hndhead : pairPath dataDir (lang, f) ∉ l.map (pairPath dataDir) :=
      (List.nodup_cons.mp (by simpa using hnd)).1
    have hdisjtail := (List.pairwise_cons.mp hdisj).2
    have hdisjhead := (List.pairwise_cons.mp hdisj).1
    cases hsc : strContains (lowerStr f.name) "promotions" with
    | true =>
      have hstep : stepFile (okChunkFn C) (okEmbed E) dataDir lang f st0
          = (Except.ok (FileStatus.skipped, 0), st0) := by
        unfold stepFile
        rw [if_pos hsc]
      rw [runFiles_cons_ok hstep]
      have hnp : nonPromoFiles ((lang, f) :: l) = nonPromoFiles l := by
        simp [nonPromoFiles, hsc]
      rw [hnp]
      exact ih st0 _ (fun q hq => hnil q (List.mem_cons_of_mem _ hq))
        (fun q hq => hpath q (List.mem_cons_of_mem _ hq)) hndtail
        (fun q hq => hfresh q (List.mem_cons_of_mem _ hq)) hdisjtail
        (fun q hq => hnodupids q (List.mem_cons_of_mem _ hq))
    | false =>
      have hpq := hnil (lang, f) (List.mem_cons_self _ _)
      simp only [pairPath] at hpq
      have hce := chunkRecs_embed (C := C) hE dataDir (lang, f)
      simp only [pairPath] at hce
      have hup : upsertAll st0 (chunkRecs C E dataDir (lang, f))
          = st0 ++ chunkRecs C E dataDir (lang, f) := by
        apply upsertAll_fresh
        · intro r hr
          exact hfresh (lang, f) (List.mem_cons_self _ _) r.id
            (List.mem_map.mpr ⟨r, hr, rfl⟩)
        · exact hnodupids (lang, f) (List.mem_cons_self _ _)
      have hstep : stepFile (okChunkFn C) (okEmbed E) dataDir lang f st0
          = (Except.ok (FileStatus.added,
              (C (pathJoin (pathJoin dataDir lang) f.name) lang).length),
            st0 ++ chunkRecs C E dataDir (lang, f)) := by
        unfold stepFile
        rw [if_neg (by simp [hsc]), if_pos (by simp [List.isEmpty_iff, hpq])]
        unfold indexFile
        simp only [okChunkFn]
        rw [hce]
        simp only [hup]
      rw [runFiles_cons_ok hstep]
      have hnp : nonPromoFiles ((lang, f) :: l) = (lang, f) :: nonPromoFiles l := by
        simp [nonPromoFiles, hsc]
      rw [hnp, List.map_cons, List.flatten_cons]
      have hrecpath : ∀ r ∈ chunkRecs C E dataDir (lang, f),
          r.metadata.path = pairPath dataDir (lang, f) :=
        chunkRecs_path (hpath (lang, f) (List.mem_cons_self _ _))
      have ihnil : ∀ q ∈ l, entriesWithPath (st0 ++ chunkRecs C E dataDir (lang, f))
          (pairPath dataDir q) = [] := by
        intro q hq
        rw [entriesWithPath_append, hnil q (List.mem_cons_of_mem _ hq)]
        rw [entriesWithPath_eq_nil]
        · rfl
        intro r hr
        rw [hrecpath r hr]
        intro hcontra
        exact hndhead (hcontra ▸ List.mem_map.mpr ⟨q, hq, rfl⟩)
      have ihfresh : ∀ q ∈ l, ∀ i ∈ (chunkRecs C E dataDir q).map (fun r => r.id),
          i ∉ (st0 ++ chunkRecs C E dataDir (lang, f)).map (fun e => e.id) := by
        intro q hq i hi
        rw [List.map_append, List.mem_append]
        rintro (hin | hin)
        · exact hfresh q (List.mem_cons_of_mem _ hq) i hi hin
        · exact hdisjhead ((chunkRecs C E dataDir q).map (fun r => r.id))
            (List.mem_map.mpr ⟨q, hq, rfl⟩) i hin hi
      obtain ⟨acc', hrun⟩ := ih (st0 ++ chunkRecs C E dataDir (lang, f))
        (bumpStats acc (pathJoin (pathJoin dataDir lang) f.name) FileStatus.added
          (C (pathJoin (pathJoin dataDir lang) f.name) lang).length)
        ihnil (fun q hq => hpath q (List.mem_cons_of_mem _ hq)) hndtail
        ihfresh hdisjtail (fun q hq => hnodupids q (List.mem_cons_of_mem _ hq))
      refine ⟨acc', ?_⟩
      rw [hrun, List.append_assoc]

lemma entriesWithPath_flattenRecs {C : String → String → List Chunk}
    {E : List String → List (List ℚ)} {dataDir : String} :
    ∀ (L : List (String × FileEntry)),
      ((L.map (pairPath dataDir)).Nodup) →
      (∀ q ∈ L, ∀ r ∈ chunkRecs C E dataDir q,
        r.metadata.path = pairPath dataDir q) →
      ∀ q ∈ L, entriesWithPath ((L.map (chunkRecs C E dataDir)).flatten)
          (pairPath dataDir q) = chunkRecs C E dataDir q := by
  intro L
  induction L with
  | nil =>
    intro _ _ q hq
    simp at hq
  | cons q0 L ih =>
    intro hnd hpath q hq
    rw [List.map_cons] at hnd
    have hndc := List.nodup_cons.mp hnd
    rw [List.map_cons, List.flatten_cons, entriesWithPath_append]
    rcases List.mem_cons.mp hq with rfl | hq'
    · rw [entriesWithPath_eq_self (hpath q (List.mem_cons_self _ _))]
      rw [entriesWithPath_eq_nil, List.append_nil]
      intro r hr
      obtain ⟨xs, hxs, hrx⟩ := List.mem_flatten.mp hr
      obtain ⟨q', hq', rfl⟩ := List.mem_map.mp hxs
      rw [hpath q' (List.mem_cons_of_mem _ hq') r hrx]
      intro hcontra
      exact hndc.1 (hcontra ▸ List.mem_map.mpr ⟨q', hq', rfl⟩)
    · rw [entriesWithPath_eq_nil, List.nil_append]
      · exact ih hndc.2 (fun q2 h2 => hpath q2 (List.mem_cons_of_mem _ h2)) q hq'
      intro r hr
      rw [hpath q0 (List.mem_cons_self _ _) r hr]
      intro hcontra
      exact hndc.1 (List.mem_map.mpr ⟨q, hq', hcontra.symm⟩)

/-- C3 (amended): `reindexTree` is idempotent on a fresh index provided
the eligible files' chunk-id sets are pairwise disjoint and nonempty
(with the `LineChunker` id scheme this means file stems are unique across
the language directories and no eligible file is blank): starting from
the empty store, a first run succeeds, and a second run with no
filesystem change reports `added = 0`, `updated = 0`,
`skipped = <number of eligible files>`, `chunksAdded = 0`, lists every
eligible file as skipped, and leaves the stored entries unchanged. -/
theorem reindexTree_idempotent_fresh
    (C : String → String → List Chunk) (E : List String → List (List ℚ))
    (fsys : String → Option (List FileEntry)) (dataDir : String)
    (hE : ∀ ts, ts.length ≤ (E ts).length)
    (hne : ∀ q ∈ eligFiles fsys dataDir,
        strContains (lowerStr q.2.name) "promotions" = false →
        C (pairPath dataDir q) q.1 ≠ [])
    (hpath : ∀ q ∈ eligFiles fsys dataDir,
        ∀ c ∈ C (pairPath dataDir q) q.1, c.metadata.path = pairPath dataDir q)
    (hnd : ((eligFiles fsys dataDir).map (pairPath dataDir)).Nodup)
    (hdisj : ((eligFiles fsys dataDir).map
        (fun q => (C (pairPath dataDir q) q.1).map (fun c => c.chunk_id))).Pairwise
          (fun a b => ∀ x ∈ a, x ∉ b))
    (hids : ∀ q ∈ eligFiles fsys dataDir,
        ((C (pairPath dataDir q) q.1).map (fun c => c.chunk_id)).Nodup) :
    ∃ acc1 st1,
      loadDocuments (okChunkFn C) (okEmbed E) fsys dataDir []
          = (Except.ok acc1, st1) ∧
      loadDocuments (okChunkFn C) (okEmbed E) fsys dataDir st1
          = (Except.ok ⟨0, 0, (eligFiles fsys dataDir).length, 0,
              (eligFiles fsys dataDir).map
                (fun q => ⟨pairPath dataDir q, "skipped", 0⟩)⟩, st1) := by
  have hidmap : ∀ q ∈ eligFiles fsys dataDir,
      (chunkRecs C E dataDir q).map (fun r => r.id)
        = (C (pairPath dataDir q) q.1).map (fun c => c.chunk_id) :=
    fun q _ => chunkRecs_ids hE dataDir q
  have hdisj' : ((eligFiles fsys dataDir).map
      (fun q => (chunkRecs C E dataDir q).map (fun r => r.id))).Pairwise
        (fun a b => ∀ x ∈ a, x ∉ b) := by
    rw [List.map_congr_left hidmap]
    exact hdisj
  have hids' : ∀ q ∈ eligFiles fsys dataDir,
      ((chunkRecs C E dataDir q).map (fun r => r.id)).Nodup :=
    fun q hq => (hidmap q hq) ▸ hids q hq
  have hrecpath : ∀ q ∈ eligFiles fsys dataDir, ∀ r ∈ chunkRecs C E dataDir q,
      r.metadata.path = pairPath dataDir q :=
    fun q hq => chunkRecs_path (hpath q hq)
  obtain ⟨acc1, hrun1⟩ := runFiles_fresh hE (eligFiles fsys dataDir) [] ⟨0, 0, 0, 0, []⟩
    (fun q _ => rfl) hpath hnd (fun q _ i _ => by simp) hdisj' hids'
  refine ⟨acc1,
    ((nonPromoFiles (eligFiles fsys dataDir)).map (chunkRecs C E dataDir)).flatten,
    ?_, ?_⟩
  · unfold loadDocuments
    rw [hrun1, List.nil_append]
  · have hndnp : ((nonPromoFiles (eligFiles fsys dataDir)).map (pairPath dataDir)).Nodup :=
      List.Nodup.sublist ((List.filter_sublist _).map (pairPath dataDir)) hnd
    have hpanp : ∀ q ∈ nonPromoFiles (eligFiles fsys dataDir),
        ∀ r ∈ chunkRecs C E dataDir q, r.metadata.path = pairPath dataDir q :=
      fun q hq => hrecpath q (List.mem_of_mem_filter hq)
    have hcur : ∀ q ∈ eligFiles fsys dataDir,
        strContains (lowerStr q.2.name) "promotions" = false →
        entriesWithPath
            (((nonPromoFiles (eligFiles fsys dataDir)).map
              (chunkRecs C E dataDir)).flatten) (pairPath dataDir q) ≠ [] ∧
        ((entriesWithPath
            (((nonPromoFiles (eligFiles fsys dataDir)).map
              (chunkRecs C E dataDir)).flatten) (pairPath dataDir q)).head?.bind
          (fun x => x.metadata.mtime)) = some q.2.mtime := by
      intro q hq hsc
      have hqnp : q ∈ nonPromoFiles (eligFiles fsys dataDir) :=
        List.mem_filter.mpr ⟨hq, by simp [hsc]⟩
      have hflat := entriesWithPath_flattenRecs
        (nonPromoFiles (eligFiles fsys dataDir)) hndnp hpanp q hqnp
      rw [hflat]
      have hrne : chunkRecs C E dataDir q ≠ [] := chunkRecs_ne_nil hE (hne q hq hsc)
      refine ⟨hrne, ?_⟩
      obtain ⟨r0, rs, hr0⟩ := List.exists_cons_of_ne_nil hrne
      rw [hr0]
      simp only [List.head?_cons, Option.bind_some]
      exact chunkRecs_mtime r0 (by rw [hr0]; exact List.mem_cons_self _ _)
    unfold loadDocuments
    rw [runFiles_all_current (eligFiles fsys dataDir) _ _ hcur]
    simp

/-- Witness for C3 (amended): the concrete tree `data/en/rules.txt`,
`data/ru/faq.txt` with distinct stems and one nonempty chunk per file is
reindexed idempotently. -/
theorem reindexTree_idempotent_fresh_witness :
    ∃ acc1 st1,
      loadDocuments (okChunkFn constChunk) (okEmbed oneVec) fsDistinctStems "data" []
          = (Except.ok acc1, st1) ∧
      loadDocuments (okChunkFn constChunk) (okEmbed oneVec) fsDistinctStems "data" st1
          = (Except.ok ⟨0, 0, (eligFiles fsDistinctStems "data").length, 0,
              (eligFiles fsDistinctStems "data").map
                (fun q => ⟨pairPath "data" q, "skipped", 0⟩)⟩, st1) := by
  exact reindexTree_idempotent_fresh constChunk oneVec fsDistinctStems "data"
    (fun ts => by simp [oneVec]) (by decide) (by decide) (by decide) (by decide)
    (by decide)

/-- Counterexample for C3 as stated: on the tree `data/en/rules.txt`,
`data/ru/rules.txt` (the same stem in both language directories, as the
repository's own data layout has), the `LineChunker` chunk ids collide
across languages, so with no filesystem change the second
`load_documents` run reports `added = 2` and `skipped = 0` instead of
`added = 0` with every file skipped. -/
theorem reindexTree_not_idempotent_counterexample :
    (statsOf (loadDocuments
        (lineChunkerFn charEnc charDec 300 50 (by decide) readSameStem) zeroEmbed
        fsSameStem "data"
        (loadDocuments (lineChunkerFn charEnc charDec 300 50 (by decide) readSameStem)
          zeroEmbed fsSameStem "data" []).2)).added = 2 ∧
    (statsOf (loadDocuments
        (lineChunkerFn charEnc charDec 300 50 (by decide) readSameStem) zeroEmbed
        fsSameStem "data"
        (loadDocuments (lineChunkerFn charEnc charDec 300 50 (by decide) readSameStem)
          zeroEmbed fsSameStem "data" []).2)).skipped = 0 := by
  exact ⟨rfl, rfl⟩

end Spartans
